import Mathlib

/-!
# nDPI `ndpi_utils.c`: the readable-string detector

A shallow embedding of `ndpi_has_human_readeable_string` and of the two
predicates it drives (`ndpi_is_valid_char`, `ndpi_find_non_eng_bigrams`),
followed by theorems about the embedded code.

Conventions of the embedding

* a `char` is a natural number (its code); the `<ctype.h>` classifiers are the
  ones of the C locale, so every code outside ASCII is in no class;
* a buffer is the list of its bytes; an access outside the list is reported as
  a `Fault` instead of a value (the C program has no defined behaviour there);
* `u_int` arithmetic is arithmetic modulo `2 ^ 32`;
* `ndpi_match_bigram`, which is not part of `ndpi_utils.c`, is a parameter
  `bigrams : Nat → Nat → Bool` (membership of a two-character key).
-/

namespace NDPI

/-! ## Machine arithmetic and memory accesses -/

/-- Reduction of a natural number to the range of a `u_int`. -/
def u32 (x : Nat) : Nat := x % 2 ^ 32

/-- Ways in which the C code can leave the bounds it was given. -/
inductive Fault where
  | oob_read (idx : Nat)
  | oob_write (idx : Nat)
  | out_of_fuel
  deriving DecidableEq, Repr

/-- Read of `buffer[i]`. -/
def rd (buffer : List Nat) (i : Nat) : Except Fault Nat :=
  match buffer[i]? with
  | some c => .ok c
  | none => .error (.oob_read i)

/-- Write `outbuf[i] = v`. -/
def wr (outbuf : List Nat) (i v : Nat) : Except Fault (List Nat) :=
  if i < outbuf.length then .ok (outbuf.set i v) else .error (.oob_write i)

/-! ## `<ctype.h>` in the C locale -/

/-- C `isdigit`: the codes of `0` to `9`. -/
def isdigit (c : Nat) : Bool := 48 ≤ c && c ≤ 57

/-- C `isalpha`: the codes of `A`-`Z` and `a`-`z`. -/
def isalpha (c : Nat) : Bool := (65 ≤ c && c ≤ 90) || (97 ≤ c && c ≤ 122)

/-- C `ispunct`: the printable codes that are neither alphanumeric nor the space. -/
def ispunct (c : Nat) : Bool :=
  (33 ≤ c && c ≤ 47) || (58 ≤ c && c ≤ 64) || (91 ≤ c && c ≤ 96) || (123 ≤ c && c ≤ 126)

/-- C `tolower`. -/
def tolower (c : Nat) : Nat := if 65 ≤ c && c ≤ 90 then c + 32 else c

/-! ## The two predicates -/

/-- Source `ndpi_is_other_char`: one of `.`, space, `@`, `/`. -/
def ndpi_is_other_char (c : Nat) : Bool :=
  c == 46 || c == 32 || c == 64 || c == 47

/-- Source `ndpi_is_valid_char`. -/
def ndpi_is_valid_char (c : Nat) : Bool :=
  if ispunct c && !ndpi_is_other_char c then false
  else isdigit c || isalpha c || ndpi_is_other_char c

/-- Source `ndpi_find_non_eng_bigrams`, applied to the two bytes `str[0]`, `str[1]`. -/
def ndpi_find_non_eng_bigrams (bigrams : Nat → Nat → Bool) (c0 c1 : Nat) : Bool :=
  if (isdigit c0 && isdigit c1) || ndpi_is_other_char c0 || ndpi_is_other_char c1 then true
  else bigrams (tolower c0) (tolower c1)

/-! ## The scanner -/

/-- Local variables of `ndpi_has_human_readeable_string`, with the output buffer. -/
structure Locals where
  ret : Nat
  i : Nat
  do_cr : Nat
  len : Nat
  o_idx : Nat
  being_o_idx : Nat
  outbuf : List Nat
  deriving DecidableEq, Repr

/-- Statement `if(o_idx < outbuf_len) outbuf[o_idx++] = c;`. -/
def put (outbuf_len c : Nat) (s : Locals) : Except Fault Locals :=
  if s.o_idx < outbuf_len then
    match wr s.outbuf s.o_idx c with
    | .ok ob => .ok { s with outbuf := ob, o_idx := u32 (s.o_idx + 1) }
    | .error e => .error e
  else .ok s

/-- Condition of the first `if` of the loop body, with C's short-circuit
evaluation: `buffer[i+1]` is read only when `buffer[i]` is a valid character.
The result carries the bytes read. -/
def pair_test (bigrams : Nat → Nat → Bool) (buffer : List Nat) (i : Nat) :
    Except Fault (Bool × Nat × Nat) :=
  match rd buffer i with
  | .error e => .error e
  | .ok c0 =>
    if ndpi_is_valid_char c0 then
      match rd buffer (u32 (i + 1)) with
      | .error e => .error e
      | .ok c1 =>
        .ok (ndpi_is_valid_char c1 && ndpi_find_non_eng_bigrams bigrams c0 c1, c0, c1)
    else .ok (false, c0, 0)

/-- The `if(do_cr) { ... }` block that closes a run; the flag is `true` when
the loop is left by `break`. -/
def close_run (min_string_match_len : Nat) (s : Locals) : Except Fault (Locals × Bool) :=
  if s.do_cr ≠ 0 then
    match (if s.len > min_string_match_len then
             (.ok { s with ret := 1 } : Except Fault Locals)
           else
             match wr s.outbuf s.being_o_idx 0 with
             | .ok ob => .ok { s with o_idx := s.being_o_idx, being_o_idx := s.being_o_idx,
                                      outbuf := ob }
             | .error e => .error e) with
    | .error e => .error e
    | .ok s1 =>
      if s1.ret ≠ 0 then .ok (s1, true)
      else .ok ({ s1 with do_cr := 0, len := 0 }, false)
  else .ok (s, false)

/-- One execution of the body of the `for` loop (without the `i++`). -/
def loop_body (bigrams : Nat → Nat → Bool) (buffer : List Nat)
    (min_string_match_len outbuf_len : Nat) (s : Locals) : Except Fault (Locals × Bool) :=
  match pair_test bigrams buffer s.i with
  | .error e => .error e
  | .ok (true, c0, c1) =>
    match put outbuf_len c0 s with
    | .error e => .error e
    | .ok s1 =>
      match put outbuf_len c1 s1 with
      | .error e => .error e
      | .ok s2 => .ok ({ s2 with do_cr := 1, i := u32 (s2.i + 1), len := u32 (s2.len + 2) }, false)
  | .ok (false, c0, _) =>
    match (if ndpi_is_valid_char c0 && s.do_cr != 0 then
             match put outbuf_len c0 s with
             | .ok s1 => (.ok { s1 with len := u32 (s1.len + 1) } : Except Fault Locals)
             | .error e => .error e
           else .ok s) with
    | .error e => .error e
    | .ok s1 => close_run min_string_match_len s1

/-- The loop `for(...; i<bound; i++)`, entered at its test; `fuel` bounds the
number of iterations. -/
def scan_loop (bigrams : Nat → Nat → Bool) (buffer : List Nat)
    (bound min_string_match_len outbuf_len : Nat) : Nat → Locals → Except Fault Locals
  | 0, _ => .error .out_of_fuel
  | fuel + 1, s =>
    if s.i < bound then
      match loop_body bigrams buffer min_string_match_len outbuf_len s with
      | .error e => .error e
      | .ok (s1, true) => .ok s1
      | .ok (s1, false) =>
        scan_loop bigrams buffer bound min_string_match_len outbuf_len fuel
          { s1 with i := u32 (s1.i + 1) }
    else .ok s

/-- The declaration `u_int ret = 0, i = 0, do_cr = 0, len = 0, o_idx = 0, being_o_idx = 0;`. -/
def initial_locals (outbuf : List Nat) : Locals :=
  { ret := 0, i := 0, do_cr := 0, len := 0, o_idx := 0, being_o_idx := 0, outbuf := outbuf }

/-- Source `ndpi_has_human_readeable_string`. The result is the final value of
the locals: field `ret` is the value returned, field `outbuf` the output
buffer after the call. The counter `i` is a `u_int` that grows in every
iteration, so `2 ^ 32` iterations are enough unless it wraps around. -/
def ndpi_has_human_readeable_string (bigrams : Nat → Nat → Bool)
    (buffer : List Nat) (buffer_size : Nat) (min_string_match_len : Nat)
    (outbuf : List Nat) (outbuf_len : Nat) : Except Fault Locals :=
  if buffer_size ≤ 0 then .ok (initial_locals outbuf)
  else
    let outbuf_len1 := u32 (outbuf_len + 2 ^ 32 - 1)
    match wr outbuf outbuf_len1 0 with
    | .error e => .error e
    | .ok ob =>
      scan_loop bigrams buffer (u32 (buffer_size + 2 ^ 32 - 2)) min_string_match_len
        outbuf_len1 (2 ^ 32) (initial_locals ob)


/-! ## A fault-free, index-free description of the scan -/

/-- Effect of `if(o_idx < outbuf_len) outbuf[o_idx++] = c;` when the write is in bounds. -/
def putP (L c : Nat) (s : Locals) : Locals :=
  if s.o_idx < L then { s with outbuf := s.outbuf.set s.o_idx c, o_idx := s.o_idx + 1 } else s

/-- The condition of the pair path on the two bytes at the scan position. -/
def pairOK (bg : Nat → Nat → Bool) (a b : Nat) : Bool :=
  ndpi_is_valid_char a && ndpi_is_valid_char b && ndpi_find_non_eng_bigrams bg a b

/-- Effect of the pair path on the run (the scan position apart). -/
def pairStep (L a b : Nat) (s : Locals) : Locals :=
  { putP L b (putP L a s) with do_cr := 1, len := s.len + 2 }

/-- Effect of the single-character extension of an open run. -/
def extStep (L a : Nat) (s : Locals) : Locals :=
  if ndpi_is_valid_char a then { putP L a s with len := s.len + 1 } else s

/-- Effect of the rejection of a run: roll back, write the sentinel, close. -/
def rejectStep (s : Locals) : Locals :=
  { s with o_idx := 0, outbuf := s.outbuf.set 0 0, do_cr := 0, len := 0 }

/-- The state with the scan position forgotten. -/
def noI (s : Locals) : Locals := { s with i := 0 }

/-- The scan as a recursion on the bytes that are still to be scanned: an
iteration takes place as long as three bytes are left. The field `i` is not
maintained. -/
def absScan (bg : Nat → Nat → Bool) (m L : Nat) : List Nat → Locals → Locals
  | a :: b :: c :: tl, s =>
    if pairOK bg a b then absScan bg m L (c :: tl) (pairStep L a b s)
    else if s.do_cr ≠ 0 then
      if (extStep L a s).len > m then { extStep L a s with ret := 1 }
      else absScan bg m L (b :: c :: tl) (rejectStep (extStep L a s))
    else absScan bg m L (b :: c :: tl) s
  | _, s => s

/-- Conditions on the locals under which no access of the loop leaves the
buffers and no counter wraps around. -/
structure WF (L : Nat) (s : Locals) : Prop where
  bo : s.being_o_idx = 0
  r0 : s.ret = 0
  oL : s.o_idx ≤ L
  Llen : L < s.outbuf.length
  L32 : L < 2 ^ 32
  leni : s.len ≤ s.i

/-- The pure counterpart of `loop_body`. -/
def bodyP (bg : Nat → Nat → Bool) (m L a b : Nat) (s : Locals) : Locals × Bool :=
  if pairOK bg a b then ({ pairStep L a b s with i := s.i + 1 }, false)
  else if s.do_cr ≠ 0 then
    if (extStep L a s).len > m then ({ extStep L a s with ret := 1 }, true)
    else (rejectStep (extStep L a s), false)
  else (s, false)

/-- The output buffer holds the first bytes of `run`, as many as fit. -/
def Holds (L : Nat) (run : List Nat) (s : Locals) : Prop :=
  s.o_idx = min run.length L ∧ s.outbuf.take s.o_idx = run.take s.o_idx

/-- A list of bytes that the scanner takes as one run when it meets it with a
run open (or with no run open and at least two bytes): the bytes pass the
pair test two by two, and a last single byte is a valid character. -/
def chain (bg : Nat → Nat → Bool) : List Nat → Bool
  | [] => true
  | [d] => ndpi_is_valid_char d
  | d1 :: d2 :: t => pairOK bg d1 d2 && chain bg t

/-- The run state after the bytes `ds` have been appended to the run. -/
def feed (L : Nat) (ds : List Nat) (s : Locals) : Locals :=
  { ds.foldl (fun t d => putP L d t) s with len := s.len + ds.length, do_cr := 1 }

/-- A state in which no run is open. -/
structure Idle (s : Locals) : Prop where
  cr : s.do_cr = 0
  len0 : s.len = 0
  o0 : s.o_idx = 0
  r0 : s.ret = 0

/-- Two output buffers `x`, `y` that come from the buffers `a`, `b` by the same
writes: at every index they agree, or both still hold what `a` and `b` held. -/
def SameWrites (a b x y : List Nat) : Prop :=
  ∀ k : Nat, x[k]? = y[k]? ∨ (x[k]? = a[k]? ∧ y[k]? = b[k]?)

/-- Two states of two scans of the same payload into different output buffers. -/
structure Twin (a b : List Nat) (s1 s2 : Locals) : Prop where
  cr : s1.do_cr = s2.do_cr
  len : s1.len = s2.len
  o : s1.o_idx = s2.o_idx
  ln : s1.outbuf.length = s2.outbuf.length
  rel : SameWrites a b s1.outbuf s2.outbuf

/-- The states in which the test `i < bound` of the `for` loop is evaluated, when
the loop is entered in state `s0`: the state at the entry, and the state after
every iteration that does not leave the loop by `break`, `i++` included. -/
inductive LoopHead (bg : Nat → Nat → Bool) (buffer : List Nat)
    (bound min_string_match_len outbuf_len : Nat) (s0 : Locals) : Locals → Prop where
  | entry : LoopHead bg buffer bound min_string_match_len outbuf_len s0 s0
  | next {s s1 : Locals} :
      LoopHead bg buffer bound min_string_match_len outbuf_len s0 s → s.i < bound →
      loop_body bg buffer min_string_match_len outbuf_len s = .ok (s1, false) →
      LoopHead bg buffer bound min_string_match_len outbuf_len s0 { s1 with i := u32 (s1.i + 1) }

/-- The loop heads of a call of `ndpi_has_human_readeable_string`: the call gets
past the test of `buffer_size`, decrements `outbuf_len`, writes the sentinel into
the last slot and enters the loop with the initial values of the locals. -/
def loop_head_of_call (bg : Nat → Nat → Bool) (buffer : List Nat) (buffer_size : Nat)
    (min_string_match_len : Nat) (outbuf : List Nat) (outbuf_len : Nat) (s : Locals) : Prop :=
  ¬ buffer_size ≤ 0 ∧
  ∃ ob, wr outbuf (u32 (outbuf_len + 2 ^ 32 - 1)) 0 = .ok ob ∧
    LoopHead bg buffer (u32 (buffer_size + 2 ^ 32 - 2)) min_string_match_len
      (u32 (outbuf_len + 2 ^ 32 - 1)) (initial_locals ob) s

/-- What holds of the locals at every loop head: `WF`, the write position is the
length of the run cut at the capacity, and `len` is 0 when no run is open. -/
structure LoopInv (L : Nat) (s : Locals) : Prop where
  wf : WF L s
  o : s.o_idx = min s.len L
  idle : s.do_cr = 0 → s.len = 0

/-- The relations among the locals at an iteration boundary, for an output
buffer of capacity `C`: `o_idx` is the write position, `being_o_idx` the start of
the run in the output buffer, `len` the length of the run, `do_cr` the flag of an
open run. -/
def cursor_invariant (C : Nat) (s : Locals) : Prop :=
  s.o_idx ≤ C - 1 ∧ s.being_o_idx ≤ s.o_idx ∧
  (s.do_cr = 0 → s.len = 0 ∧ s.o_idx = s.being_o_idx) ∧
  (s.do_cr ≠ 0 → s.o_idx - s.being_o_idx = min s.len (C - 1))

/-! ## The punycode check -/

/-- The condition of the `if` of `ndpi_check_punycode_string` at index `i`,
`buffer[i] == 'x' && buffer[i+1] == 'n' && buffer[i+2] == '-' && buffer[i+3] == '-'`,
with C's short-circuit evaluation. -/
def punycode_at (buffer : List Nat) (i : Nat) : Except Fault Bool :=
  match rd buffer i with
  | .error e => .error e
  | .ok c0 =>
    if c0 = 120 then
      match rd buffer (i + 1) with
      | .error e => .error e
      | .ok c1 =>
        if c1 = 110 then
          match rd buffer (i + 2) with
          | .error e => .error e
          | .ok c2 =>
            if c2 = 45 then
              match rd buffer (i + 3) with
              | .error e => .error e
              | .ok c3 => .ok (c3 == 45)
            else .ok false
        else .ok false
    else .ok false

/-- The loop `while(i++ < len) { if(...) return(1); }`, entered at its test with
the value `i`: the test compares the old value of `i`, the body sees the
incremented one. -/
def punycode_loop (buffer : List Nat) (len : Int) : Nat → Nat → Except Fault Nat
  | 0, _ => .error .out_of_fuel
  | fuel + 1, i =>
    if (i : Int) < len then
      match punycode_at buffer (i + 1) with
      | .error e => .error e
      | .ok true => .ok 1
      | .ok false => punycode_loop buffer len fuel (i + 1)
    else .ok 0

/-- Source `ndpi_check_punycode_string`. The loop runs at most `len` times; the
`int` arithmetic does not overflow as long as `len + 3 < 2 ^ 31`. -/
def ndpi_check_punycode_string (buffer : List Nat) (len : Int) : Except Fault Nat :=
  punycode_loop buffer len (len.toNat + 1) 0

/-! ## The prefix matcher -/

/-- Bitwise complement `~x` of a `u_int32_t`. -/
def not32 (x : Nat) : Nat := 4294967295 - u32 x

/-- Source `ndpi_net_match`. The shift `~mask >> num_bits` of a 32-bit operand is
defined in C for `num_bits < 32` only; for a larger count the behaviour of the
program is undefined and the embedding gives no result. -/
def ndpi_net_match (ip_to_check net num_bits : Nat) : Option Nat :=
  if num_bits < 32 then
    let mask := not32 (not32 0 >>> num_bits)
    some (if ip_to_check &&& mask = net &&& mask then 1 else 0)
  else none

/-! ## The labels of the TLS versions -/

/-- One upper-case hexadecimal digit, as the conversion `%X` of `snprintf` prints it. -/
def hex_digit (d : Nat) : Char := if d < 10 then Char.ofNat (48 + d) else Char.ofNat (55 + d)

/-- The conversion `%04X` of `snprintf` for a value below `2 ^ 16`: four
upper-case hexadecimal digits, with leading zeros. -/
def format_04X (v : Nat) : List Char :=
  [hex_digit (v / 4096 % 16), hex_digit (v / 256 % 16), hex_digit (v / 16 % 16),
    hex_digit (v % 16)]

/-- Source `ndpi_ssl_version2str`: the label returned and the value stored in
`*unknown_tls_version`. The label of an unknown version is printed by
`snprintf(v, sizeof(v), "TLS (%04X)", version)` into a buffer of 12 bytes, which
keeps at most 11 characters. -/
def ndpi_ssl_version2str (version : Nat) : String × Nat :=
  if version = 0x0300 then ("SSLv3", 0)
  else if version = 0x0301 then ("TLSv1", 0)
  else if version = 0x0302 then ("TLSv1.1", 0)
  else if version = 0x0303 then ("TLSv1.2", 0)
  else if version = 0x0304 then ("TLSv1.3", 0)
  else if version = 0xFB1A then ("TLSv1.3 (Fizz)", 0)
  else if version = 0xFEFF then ("DTLSv1.0", 0)
  else if version = 0xFEFD then ("DTLSv1.2", 0)
  else if version ≥ 0x7f00 ∧ version ≤ 0x7fff then ("TLSv1.3 (draft)", 0)
  else (String.mk ((['T', 'L', 'S', ' ', '('] ++ format_04X version ++ [')']).take 11), 1)

/-- The value of a hexadecimal digit. -/
def hex_value (c : Char) : Nat := if c.toNat < 65 then c.toNat - 48 else c.toNat - 55

/-- The number that a string of hexadecimal digits denotes. -/
def hex_decode (cs : List Char) : Nat := cs.foldl (fun acc c => acc * 16 + hex_value c) 0

/-! ## The search tree -/

/-- A pointer to an `ndpi_node`: the null pointer, or a node with its key and
its two links. -/
inductive ndpi_node (K : Type) where
  | null : ndpi_node K
  | node (key : K) (left right : ndpi_node K) : ndpi_node K

/-- The test `p == (ndpi_node *)0`. -/
def is_null {K : Type} : ndpi_node K → Bool
  | .null => true
  | .node _ _ _ => false

/-- The keys of a tree from left to right. -/
def keys {K : Type} : ndpi_node K → List K
  | .null => []
  | .node y l r => keys l ++ y :: keys r

/-- The loop of step D3 of `ndpi_tdelete` on the tree with root key `rk` and
links `rl`, `rr`: it goes down the left links to the node `q` without a left
link, and `r->left = q->right` takes `q` out. The result is the key of `q` and
the tree in which the right link of `q` has taken the place of `q`. -/
def unlink_leftmost {K : Type} (rk : K) (rl rr : ndpi_node K) : K × ndpi_node K :=
  match rl with
  | .null => (rk, rr)
  | .node lk ll lr =>
    let (qk, rest) := unlink_leftmost lk ll lr
    (qk, .node rk rest rr)

/-- Steps D1 to D3 of `ndpi_tdelete`: the node `q` that takes the place of a
deleted node with the links `l` and `r`. -/
def replacement {K : Type} (l r : ndpi_node K) : ndpi_node K :=
  match l with
  | .null => r
  | .node _ _ _ =>
    match r with
    | .null => l
    | .node rk rl rr =>
      match rl with
      | .null => .node rk l rr
      | .node lk ll lr =>
        let (qk, rest) := unlink_leftmost lk ll lr
        .node qk l (.node rk rest rr)

/-- Source `ndpi_tdelete`: the tree after the call and the key returned (`none`
for the null pointer). -/
def ndpi_tdelete {K : Type} (compar : K → K → Int) (key : K) :
    ndpi_node K → ndpi_node K × Option K
  | .null => (.null, none)
  | .node y l r =>
    if compar key y = 0 then (replacement l r, some y)
    else if compar key y < 0 then
      ((.node y (ndpi_tdelete compar key l).1 r), (ndpi_tdelete compar key l).2)
    else
      ((.node y l (ndpi_tdelete compar key r).1), (ndpi_tdelete compar key r).2)

/-- The type `ndpi_VISIT`. -/
inductive ndpi_VISIT where
  | ndpi_preorder
  | ndpi_postorder
  | ndpi_endorder
  | ndpi_leaf
  deriving DecidableEq, Repr

/-- One call `(*action)(root, which, level, user_data)`. -/
structure ActionCall (K : Type) where
  root : ndpi_node K
  which : ndpi_VISIT
  level : Nat

/-- Source `ndpi_trecurse`: the calls of the action, in the order in which they
are made. The function is called for a node only; a link is followed only if it
is not null. -/
def ndpi_trecurse {K : Type} : ndpi_node K → Nat → List (ActionCall K)
  | .null, _ => []
  | .node y l r, level =>
    if is_null l && is_null r then [⟨.node y l r, .ndpi_leaf, level⟩]
    else
      [⟨.node y l r, .ndpi_preorder, level⟩]
        ++ (if is_null l then [] else ndpi_trecurse l (level + 1))
        ++ [⟨.node y l r, .ndpi_postorder, level⟩]
        ++ (if is_null r then [] else ndpi_trecurse r (level + 1))
        ++ [⟨.node y l r, .ndpi_endorder, level⟩]

/-- Source `ndpi_twalk`; `action_null` tells whether the action is the null pointer. -/
def ndpi_twalk {K : Type} (vroot : ndpi_node K) (action_null : Bool) : List (ActionCall K) :=
  if !is_null vroot && !action_null then ndpi_trecurse vroot 0 else []

/-- The nodes of a tree in in-order (left subtree, node, right subtree), each
with its depth, the root of the walk having depth `d`. -/
def inorder_nodes {K : Type} : ndpi_node K → Nat → List (ndpi_node K × Nat)
  | .null, _ => []
  | .node y l r, d => inorder_nodes l (d + 1) ++ (.node y l r, d) :: inorder_nodes r (d + 1)

/-- The key of a node. -/
def key_of {K : Type} : ndpi_node K → Option K
  | .null => none
  | .node y _ _ => some y

/-- A comparator that orders the keys totally: `compar a b` is negative, zero
or positive as `a` is smaller than, equal to or larger than `b`. -/
structure TotalOrder {K : Type} (compar : K → K → Int) : Prop where
  antisymm : ∀ a b, compar a b < 0 ↔ 0 < compar b a
  trans : ∀ a b c, compar a b ≤ 0 → compar b c ≤ 0 → compar a c ≤ 0

/-- A search tree: the keys of the left subtree of a node compare smaller than
the key of the node, the keys of the right subtree larger. -/
def search_tree {K : Type} (compar : K → K → Int) : ndpi_node K → Prop
  | .null => True
  | .node y l r =>
    (∀ x ∈ keys l, compar x y < 0) ∧ (∀ x ∈ keys r, 0 < compar x y) ∧
      search_tree compar l ∧ search_tree compar r

/-- The number of nodes of a tree. -/
def node_count {K : Type} : ndpi_node K → Nat
  | .null => 0
  | .node _ l r => node_count l + 1 + node_count r

/-! ## The loop refines `absScan`

For a payload of two or more bytes (and fewer than `2 ^ 32`) no access is out of
bounds, no counter wraps around and the fuel is not used up. -/

theorem u32_of_lt {x : Nat} (h : x < 2 ^ 32) : u32 x = x := Nat.mod_eq_of_lt h

theorem put_eq {L c : Nat} {s : Locals} (h : WF L s) : put L c s = .ok (putP L c s) := by
  unfold put putP wr
  have h1 := h.oL
  have h2 := h.Llen
  have h3 := h.L32
  by_cases ho : s.o_idx < L
  · have : s.o_idx < s.outbuf.length := by omega
    have h4 : u32 (s.o_idx + 1) = s.o_idx + 1 := u32_of_lt (by omega)
    simp [ho, this, h4]
  · simp [ho]

theorem putP_WF {L c : Nat} {s : Locals} (h : WF L s) : WF L (putP L c s) := by
  unfold putP
  by_cases ho : s.o_idx < L
  · simp only [ho, if_true]
    exact ⟨h.bo, h.r0, ho, by simpa using h.Llen, h.L32, h.leni⟩
  · simp only [ho, if_false]; exact h

theorem rd_of_drop {p : List Nat} {i a : Nat} {t : List Nat} (h : p.drop i = a :: t) :
    rd p i = .ok a := by
  have : p[i]? = some a := by
    have := List.getElem?_drop (L := p) (i := i) (j := 0)
    rw [h] at this
    simpa using this.symm
  simp [rd, this]

theorem drop_succ_of_drop {p : List Nat} {i a : Nat} {t : List Nat} (h : p.drop i = a :: t) :
    p.drop (i + 1) = t := by
  have : p.drop (i + 1) = (p.drop i).drop 1 := by
    rw [List.drop_drop]
  rw [this, h]; rfl


@[simp] theorem putP_i (L c : Nat) (s : Locals) : (putP L c s).i = s.i := by
  unfold putP; split <;> rfl
@[simp] theorem putP_len (L c : Nat) (s : Locals) : (putP L c s).len = s.len := by
  unfold putP; split <;> rfl
@[simp] theorem putP_ret (L c : Nat) (s : Locals) : (putP L c s).ret = s.ret := by
  unfold putP; split <;> rfl
@[simp] theorem putP_do_cr (L c : Nat) (s : Locals) : (putP L c s).do_cr = s.do_cr := by
  unfold putP; split <;> rfl
@[simp] theorem putP_being (L c : Nat) (s : Locals) :
    (putP L c s).being_o_idx = s.being_o_idx := by
  unfold putP; split <;> rfl
@[simp] theorem putP_outbuf_length (L c : Nat) (s : Locals) :
    (putP L c s).outbuf.length = s.outbuf.length := by
  unfold putP; split <;> simp

theorem wr_eq {ob : List Nat} {i v : Nat} (h : i < ob.length) : wr ob i v = .ok (ob.set i v) := by
  simp [wr, h]

theorem loop_body_eq {g : Nat → Nat → Bool} {p : List Nat} {m L a b : Nat} {t : List Nat}
    {s : Locals} (h : WF L s) (hd : p.drop s.i = a :: b :: t) (hn : p.length < 2 ^ 32) :
    loop_body g p m L s = .ok (bodyP g m L a b s) := by
  have hlen : s.i + 2 ≤ p.length := by
    have := congrArg List.length hd
    simp at this; omega
  have h0 := rd_of_drop hd
  have h1 := rd_of_drop (drop_succ_of_drop hd)
  have hu : u32 (s.i + 1) = s.i + 1 := u32_of_lt (by omega)
  have hli := h.leni
  have hl2 : u32 (s.len + 2) = s.len + 2 := u32_of_lt (by omega)
  have hl1 : u32 (s.len + 1) = s.len + 1 := u32_of_lt (by omega)
  have hpos : 0 < s.outbuf.length := by have := h.Llen; omega
  unfold loop_body pair_test bodyP pairOK
  rw [h0, hu, h1]
  by_cases va : ndpi_is_valid_char a = true
  · by_cases hp : (ndpi_is_valid_char b && ndpi_find_non_eng_bigrams g a b) = true
    · simp only [va, hp, Bool.true_and, if_true, put_eq h, put_eq (putP_WF h), putP_i, putP_len,
        hu, hl2, pairStep]
    · by_cases hc : s.do_cr = 0
      · simp [va, hp, hc, close_run]
      · have hw := putP_WF (c := a) h
        simp only [va, hp, hc, Bool.true_and, if_true, put_eq h, putP_i, putP_len,
          hu, hl1, extStep, close_run, rejectStep, Bool.false_eq_true, if_false, ne_eq,
          not_false_eq_true, bne_iff_ne, decide_True, decide_not, Bool.not_eq_true',
          decide_eq_false_iff_not, putP_do_cr, putP_being, h.bo]
        have hw0 : wr (putP L a s).outbuf 0 0 = .ok ((putP L a s).outbuf.set 0 0) :=
          wr_eq (by simpa using hpos)
        by_cases hm : s.len + 1 > m
        · simp [hm]
        · simp [hm, hw0, h.r0]
  · have hw0 : wr s.outbuf 0 0 = .ok (s.outbuf.set 0 0) := wr_eq hpos
    by_cases hc : s.do_cr = 0
    · simp [va, hc, close_run]
    · by_cases hm : s.len > m
      · simp [va, hc, close_run, extStep, hm]
      · simp [va, hc, close_run, extStep, hm, hw0, h.r0, h.bo, rejectStep]

@[simp] theorem noI_putP (L c : Nat) (s : Locals) : noI (putP L c s) = putP L c (noI s) := by
  unfold putP noI; split <;> simp_all

theorem noI_pairStep (L a b : Nat) (s : Locals) :
    noI (pairStep L a b s) = pairStep L a b (noI s) := by
  unfold pairStep
  rw [← noI_putP, ← noI_putP]
  simp [noI]

theorem noI_extStep (L a : Nat) (s : Locals) :
    noI (extStep L a s) = extStep L a (noI s) := by
  unfold extStep
  split
  · rw [← noI_putP]; simp [noI]
  · rfl

theorem noI_rejectStep (s : Locals) : noI (rejectStep s) = rejectStep (noI s) := rfl

@[simp] theorem noI_set_i (s : Locals) (k : Nat) : noI { s with i := k } = noI s := rfl

theorem pairStep_WF {L a b : Nat} {s : Locals} (h : WF L s) :
    WF L { pairStep L a b s with i := s.i + 2 } := by
  have h2 := putP_WF (c := b) (putP_WF (c := a) h)
  exact ⟨h2.bo, h2.r0, h2.oL, h2.Llen, h2.L32, by simp [pairStep]; exact h.leni⟩

@[simp] theorem extStep_ret (L a : Nat) (s : Locals) : (extStep L a s).ret = s.ret := by
  unfold extStep; split <;> simp
@[simp] theorem extStep_do_cr (L a : Nat) (s : Locals) : (extStep L a s).do_cr = s.do_cr := by
  unfold extStep; split <;> simp
@[simp] theorem extStep_being (L a : Nat) (s : Locals) :
    (extStep L a s).being_o_idx = s.being_o_idx := by
  unfold extStep; split <;> simp
@[simp] theorem extStep_i (L a : Nat) (s : Locals) : (extStep L a s).i = s.i := by
  unfold extStep; split <;> simp
@[simp] theorem extStep_outbuf_length (L a : Nat) (s : Locals) :
    (extStep L a s).outbuf.length = s.outbuf.length := by
  unfold extStep; split <;> simp

theorem reject_ext_WF {L a : Nat} {s : Locals} (h : WF L s) (k : Nat) :
    WF L { rejectStep (extStep L a s) with i := k } :=
  ⟨by simpa [rejectStep] using h.bo, by simpa [rejectStep] using h.r0, Nat.zero_le _,
    by simpa [rejectStep] using h.Llen, h.L32, Nat.zero_le _⟩

theorem scan_loop_refines (bg : Nat → Nat → Bool) (p : List Nat) (m L : Nat)
    (hn : p.length < 2 ^ 32) :
    ∀ (fuel : Nat) (rest : List Nat) (s : Locals), WF L s → p.drop s.i = rest →
      rest.length < fuel →
      ∃ r, scan_loop bg p (p.length - 2) m L fuel s = .ok r ∧
        noI r = absScan bg m L rest (noI s) := by
  intro fuel
  induction fuel with
  | zero => intro rest s _ _ h; omega
  | succ fuel ih =>
    intro rest s hwf hd hf
    have hlen : rest.length = p.length - s.i := by rw [← hd]; simp
    match rest, hd, hf, hlen with
    | [], hd, hf, hlen =>
      refine ⟨s, ?_, by simp [absScan]⟩
      have : ¬ s.i < p.length - 2 := by simp at hlen; omega
      simp [scan_loop, this]
    | [_], hd, hf, hlen =>
      refine ⟨s, ?_, by simp [absScan]⟩
      have : ¬ s.i < p.length - 2 := by simp at hlen; omega
      simp [scan_loop, this]
    | [_, _], hd, hf, hlen =>
      refine ⟨s, ?_, by simp [absScan]⟩
      have : ¬ s.i < p.length - 2 := by simp at hlen; omega
      simp [scan_loop, this]
    | a :: b :: c :: tl, hd, hf, hlen =>
      have hi : s.i < p.length - 2 := by simp at hlen; omega
      have hb := loop_body_eq (g := bg) (m := m) hwf hd hn
      have hd1 := drop_succ_of_drop hd
      have hd2 := drop_succ_of_drop hd1
      have hu1 : u32 (s.i + 1) = s.i + 1 := u32_of_lt (by omega)
      have hu2 : u32 (s.i + 1 + 1) = s.i + 2 := u32_of_lt (by omega)
      simp only [List.length_cons] at hf
      unfold scan_loop
      simp only [hi, if_true, hb]
      unfold bodyP
      rw [absScan]
      by_cases hp : pairOK bg a b = true
      · simp only [hp, if_true, hu2]
        obtain ⟨r, hr, hr2⟩ := ih (c :: tl) { pairStep L a b s with i := s.i + 2 }
          (pairStep_WF hwf) hd2 (by simp; omega)
        refine ⟨r, ?_, ?_⟩
        · rw [← hr]
        · rw [hr2, ← noI_pairStep]; rfl
      · by_cases hc : s.do_cr = 0
        · have hc1 : ¬ s.do_cr ≠ 0 := by simp [hc]
          have hc2 : ¬ (noI s).do_cr ≠ 0 := hc1
          simp only [hp, hc1, hc2, Bool.false_eq_true, if_false]
          obtain ⟨r, hr, hr2⟩ := ih (b :: c :: tl) { s with i := s.i + 1 }
            ⟨hwf.bo, hwf.r0, hwf.oL, hwf.Llen, hwf.L32, Nat.le_succ_of_le hwf.leni⟩ hd1
            (by simp; omega)
          refine ⟨r, ?_, ?_⟩
          · rw [← hr, hu1]
          · rw [hr2]; rfl
        · by_cases hm : (extStep L a s).len > m
          · have hm2 : (extStep L a (noI s)).len > m := by
              rw [← noI_extStep]; exact hm
            have hc2 : (noI s).do_cr ≠ 0 := hc
            simp only [hp, hc, hm, hm2, hc2, Bool.false_eq_true, if_false, if_true, ne_eq,
              not_false_eq_true]
            refine ⟨_, rfl, ?_⟩
            rw [← noI_extStep]; rfl
          · have hm2 : ¬ (extStep L a (noI s)).len > m := by
              rw [← noI_extStep]; exact hm
            have hc2 : (noI s).do_cr ≠ 0 := hc
            simp only [hp, hc, hm, hm2, hc2, Bool.false_eq_true, if_false, if_true, ne_eq,
              not_false_eq_true]
            obtain ⟨r, hr, hr2⟩ := ih (b :: c :: tl)
              { rejectStep (extStep L a s) with i := s.i + 1 }
              (reject_ext_WF hwf _) hd1 (by simp; omega)
            refine ⟨r, ?_, ?_⟩
            · rw [← hr]
              have : (rejectStep (extStep L a s)).i = s.i := by simp [rejectStep]
              rw [this, hu1]
            · rw [hr2, ← noI_extStep, ← noI_rejectStep]; rfl

theorem initial_WF {ob : List Nat} {L : Nat} (h1 : L < ob.length) (h2 : L < 2 ^ 32) :
    WF L (initial_locals ob) :=
  ⟨rfl, rfl, Nat.zero_le _, h1, h2, Nat.le_refl _⟩

/-- A payload of at least two bytes is scanned without fault, and the result
is the one of `absScan`. -/
theorem scan_normal (bg : Nat → Nat → Bool) (p out : List Nat) (m : Nat)
    (hp2 : 2 ≤ p.length) (hp : p.length < 2 ^ 32) (hc1 : 1 ≤ out.length)
    (hc : out.length < 2 ^ 32) :
    ∃ r, ndpi_has_human_readeable_string bg p p.length m out out.length = .ok r ∧
      noI r = absScan bg m (out.length - 1) p
        (initial_locals (out.set (out.length - 1) 0)) := by
  have e1 : u32 (out.length + 2 ^ 32 - 1) = out.length - 1 := by
    unfold u32; omega
  have e2 : u32 (p.length + 2 ^ 32 - 2) = p.length - 2 := by
    unfold u32; omega
  have e3 : ¬ p.length ≤ 0 := by omega
  unfold ndpi_has_human_readeable_string
  simp only [e1, e2, e3, if_false, wr_eq (show out.length - 1 < out.length by omega)]
  exact scan_loop_refines bg p m (out.length - 1) hp (2 ^ 32) p _
    (initial_WF (by simp; omega) (by omega)) (by simp [initial_locals]) hp

/-- An empty payload: the early `return(0)`. -/
theorem scan_empty (bg : Nat → Nat → Bool) (p out : List Nat) (m C : Nat) :
    ndpi_has_human_readeable_string bg p 0 m out C = .ok (initial_locals out) := by
  simp [ndpi_has_human_readeable_string]


/-- A payload of one byte: `buffer_size-2` wraps around to `2^32-1` and the
scan reads `buffer[1]`. -/
theorem scan_one (bg : Nat → Nat → Bool) (a : Nat) (out : List Nat) (m : Nat)
    (hc1 : 1 ≤ out.length) (hc : out.length < 2 ^ 32) :
    ndpi_has_human_readeable_string bg [a] 1 m out out.length = .error (.oob_read 1) := by
  have e1 : u32 (out.length + 2 ^ 32 - 1) = out.length - 1 := by
    unfold u32; omega
  have e2 : u32 (1 + 2 ^ 32 - 2) = 4294967295 := by decide
  have e3 : (2 : Nat) ^ 32 = 4294967294 + 1 + 1 := by norm_num
  unfold ndpi_has_human_readeable_string
  simp only [e1, e2, wr_eq (show out.length - 1 < out.length by omega)]
  rw [e3]
  by_cases va : ndpi_is_valid_char a = true
  · simp [scan_loop, loop_body, pair_test, rd, initial_locals, va, u32]
  · simp [scan_loop, loop_body, pair_test, rd, initial_locals, va, u32, close_run]

theorem Holds.putP {L : Nat} {run : List Nat} {s : Locals} (c : Nat)
    (h : Holds L run s) (hL : L < s.outbuf.length) : Holds L (run ++ [c]) (putP L c s) := by
  obtain ⟨h1, h2⟩ := h
  unfold NDPI.putP
  by_cases ho : s.o_idx < L
  · have hk : s.o_idx = run.length := by omega
    simp only [ho, if_true]
    refine ⟨by simp; omega, ?_⟩
    simp only
    rw [hk] at h2 ⊢
    have hlt : run.length < s.outbuf.length := by omega
    have hg : (s.outbuf.set run.length c)[run.length]? = some c := by
      simp [List.getElem?_set, hlt]
    have ht : List.take run.length (s.outbuf.set run.length c) = List.take run.length run := by
      rw [List.set_take, List.set_eq_of_length_le (by simp), h2]
    rw [List.take_succ, hg, ht]
    simp
  · have hk : s.o_idx = L := by omega
    have hle : L ≤ run.length := by omega
    simp only [ho, if_false]
    refine ⟨by simp; omega, ?_⟩
    rw [hk] at h2 ⊢
    rw [h2, List.take_append_of_le_length hle]


theorem pairOK_valid {bg : Nat → Nat → Bool} {a b : Nat} (h : pairOK bg a b = true) :
    ndpi_is_valid_char a = true ∧ ndpi_is_valid_char b = true := by
  unfold pairOK at h
  simp only [Bool.and_eq_true] at h
  exact ⟨h.1.1, h.1.2⟩

theorem Holds.pairStep {L : Nat} {run : List Nat} {s : Locals} (a b : Nat)
    (h : Holds L run s) (hL : L < s.outbuf.length) :
    Holds L (run ++ [a, b]) (pairStep L a b s) := by
  have h1 := h.putP a hL
  have h2 := h1.putP b (by simpa using hL)
  have e : run ++ [a, b] = run ++ [a] ++ [b] := by simp
  rw [e]
  exact h2

theorem Holds.extStep {L : Nat} {run : List Nat} {s : Locals} (a : Nat)
    (h : Holds L run s) (hL : L < s.outbuf.length) (va : ndpi_is_valid_char a = true) :
    Holds L (run ++ [a]) (extStep L a s) := by
  have h1 := h.putP a hL
  unfold NDPI.extStep
  simp only [va, if_true]
  exact h1

theorem Holds.nil_reject {L : Nat} (s : Locals) : Holds L [] (rejectStep s) := by
  simp [Holds, rejectStep]

theorem absScan_short (bg : Nat → Nat → Bool) (m L : Nat) {t : List Nat} {s : Locals}
    (hne : ∀ (a b c : Nat) (tl : List Nat), t = a :: b :: c :: tl → False) :
    absScan bg m L t s = s := by
  unfold absScan
  split
  · exact (hne _ _ _ _ rfl).elim
  · rfl

/-- Soundness of the verdict on `absScan`: `pre ++ run` is the part of the
payload already scanned, `run` the open run. -/
theorem absScan_sound (bg : Nat → Nat → Bool) (m L : Nat) (rest : List Nat) (s : Locals) :
    ∀ (pre run : List Nat), s.ret = 0 → L < s.outbuf.length → s.len = run.length →
      (s.do_cr = 0 → run = []) → (∀ b ∈ run, ndpi_is_valid_char b = true) → Holds L run s →
      (absScan bg m L rest s).ret = 1 →
      ∃ pre1 run1 post, pre ++ run ++ rest = pre1 ++ run1 ++ post ∧ m < run1.length ∧
        run1.length = (absScan bg m L rest s).len ∧
        (∀ b ∈ run1, ndpi_is_valid_char b = true) ∧ Holds L run1 (absScan bg m L rest s) := by
  induction rest, s using absScan.induct bg m L with
  | case1 a b c tl s hp ih =>
    intro pre run hr hL hlen hidle hval hh hfound
    rw [absScan, if_pos hp] at hfound ⊢
    obtain ⟨va, vb⟩ := pairOK_valid hp
    obtain ⟨pre1, run1, post, e, h1, h2, h3, h4⟩ := ih pre (run ++ [a, b])
      (by simpa [pairStep] using hr) (by simpa [pairStep] using hL)
      (by simp [pairStep, hlen]) (by simp [pairStep])
      (by
        intro x hx
        simp only [List.mem_append, List.mem_cons, List.mem_singleton, List.not_mem_nil,
          or_false] at hx
        rcases hx with hx | hx | hx
        · exact hval x hx
        · rw [hx]; exact va
        · rw [hx]; exact vb)
      (hh.pairStep a b hL) hfound
    exact ⟨pre1, run1, post, by rw [← e]; simp, h1, h2, h3, h4⟩
  | case2 a b c tl s hp hc hm =>
    intro pre run hr hL hlen hidle hval hh hfound
    rw [absScan, if_neg hp, if_pos hc, if_pos hm]
    by_cases va : ndpi_is_valid_char a = true
    · have hx := hh.extStep a hL va
      refine ⟨pre, run ++ [a], b :: c :: tl, by simp, ?_, ?_, ?_, ?_⟩
      · simp [extStep, va] at hm; simp; omega
      · simp [extStep, va, hlen]
      · intro x hx
        simp only [List.mem_append, List.mem_singleton] at hx
        rcases hx with hx | hx
        · exact hval x hx
        · rw [hx]; exact va
      · exact hx
    · refine ⟨pre, run, a :: b :: c :: tl, rfl, ?_, ?_, hval, ?_⟩
      · simp [extStep, va] at hm; omega
      · simp [extStep, va, hlen]
      · simpa [extStep, va] using hh
  | case3 a b c tl s hp hc hm ih =>
    intro pre run hr hL hlen hidle hval hh hfound
    rw [absScan, if_neg hp, if_pos hc, if_neg hm] at hfound ⊢
    obtain ⟨pre1, run1, post, e, h1, h2, h3, h4⟩ := ih (pre ++ run ++ [a]) []
      (by simpa [rejectStep] using hr) (by simpa [rejectStep] using hL)
      (by simp [rejectStep]) (fun _ => rfl) (by simp) (Holds.nil_reject _) hfound
    exact ⟨pre1, run1, post, by rw [← e]; simp, h1, h2, h3, h4⟩
  | case4 a b c tl s hp hc ih =>
    intro pre run hr hL hlen hidle hval hh hfound
    rw [absScan, if_neg hp, if_neg hc] at hfound ⊢
    have hrun : run = [] := hidle (by simpa using hc)
    subst hrun
    obtain ⟨pre1, run1, post, e, h1, h2, h3, h4⟩ := ih (pre ++ [a]) []
      hr hL hlen (fun _ => rfl) (by simp) hh hfound
    exact ⟨pre1, run1, post, by rw [← e]; simp, h1, h2, h3, h4⟩
  | case5 t s hne =>
    intro pre run hr hL hlen hidle hval hh hfound
    rw [absScan_short bg m L hne] at hfound
    omega


theorem noI_ret (s : Locals) : (noI s).ret = s.ret := rfl
theorem noI_outbuf (s : Locals) : (noI s).outbuf = s.outbuf := rfl
theorem noI_len (s : Locals) : (noI s).len = s.len := rfl
theorem noI_o_idx (s : Locals) : (noI s).o_idx = s.o_idx := rfl
theorem noI_do_cr (s : Locals) : (noI s).do_cr = s.do_cr := rfl

theorem Holds.noI {L : Nat} {run : List Nat} {s : Locals} (h : Holds L run (noI s)) :
    Holds L run s := h

/-! ## The scan of a payload of a known shape -/

theorem absScan_cons3 (bg : Nat → Nat → Bool) (m L a b c : Nat) (tl : List Nat) (s : Locals) :
    absScan bg m L (a :: b :: c :: tl) s =
      if pairOK bg a b then absScan bg m L (c :: tl) (pairStep L a b s)
      else if s.do_cr ≠ 0 then
        if (extStep L a s).len > m then { extStep L a s with ret := 1 }
        else absScan bg m L (b :: c :: tl) (rejectStep (extStep L a s))
      else absScan bg m L (b :: c :: tl) s := by
  rw [absScan]

theorem absScan_nil (bg : Nat → Nat → Bool) (m L : Nat) (s : Locals) :
    absScan bg m L [] s = s := by simp [absScan]

theorem absScan_one (bg : Nat → Nat → Bool) (m L a : Nat) (s : Locals) :
    absScan bg m L [a] s = s := by simp [absScan]

theorem absScan_two (bg : Nat → Nat → Bool) (m L a b : Nat) (s : Locals) :
    absScan bg m L [a, b] s = s := by simp [absScan]

/-- With no run open, a position where the pair test fails is skipped. -/
theorem absScan_idle_skip (bg : Nat → Nat → Bool) (m L a b : Nat) (t : List Nat) (s : Locals)
    (hc : s.do_cr = 0) (hp : pairOK bg a b = false) :
    absScan bg m L (a :: b :: t) s = absScan bg m L (b :: t) s := by
  cases t with
  | nil => rw [absScan_two, absScan_one]
  | cons c tl => rw [absScan_cons3]; simp [hp, hc]

theorem pairOK_invalid_left (bg : Nat → Nat → Bool) {a : Nat} (b : Nat)
    (h : ndpi_is_valid_char a = false) : pairOK bg a b = false := by
  simp [pairOK, h]

theorem pairOK_invalid_right (bg : Nat → Nat → Bool) (a : Nat) {b : Nat}
    (h : ndpi_is_valid_char b = false) : pairOK bg a b = false := by
  simp [pairOK, h]

/-- With no run open, a byte that is not a valid character is skipped. -/
theorem absScan_idle_invalid (bg : Nat → Nat → Bool) (m L a : Nat) (t : List Nat) (s : Locals)
    (hc : s.do_cr = 0) (ha : ndpi_is_valid_char a = false) :
    absScan bg m L (a :: t) s = absScan bg m L t s := by
  cases t with
  | nil => rw [absScan_one, absScan_nil]
  | cons b tl => exact absScan_idle_skip bg m L a b tl s hc (pairOK_invalid_left bg b ha)

/-- With no run open, bytes that are not valid characters are skipped. -/
theorem absScan_idle_junk (bg : Nat → Nat → Bool) (m L : Nat) (js t : List Nat) (s : Locals)
    (hc : s.do_cr = 0) (hj : ∀ b ∈ js, ndpi_is_valid_char b = false) :
    absScan bg m L (js ++ t) s = absScan bg m L t s := by
  induction js with
  | nil => rfl
  | cons j js ih =>
    rw [List.cons_append, absScan_idle_invalid bg m L j _ s hc (hj j (by simp))]
    exact ih (fun b hb => hj b (by simp [hb]))

theorem putP_with (L d : Nat) (t : Locals) (x y : Nat) :
    putP L d { t with len := x, do_cr := y } = { putP L d t with len := x, do_cr := y } := by
  unfold putP; split <;> rfl

theorem foldl_putP_with (L : Nat) (ds : List Nat) (t : Locals) (x y : Nat) :
    ds.foldl (fun t d => putP L d t) { t with len := x, do_cr := y } =
      { ds.foldl (fun t d => putP L d t) t with len := x, do_cr := y } := by
  induction ds generalizing t with
  | nil => rfl
  | cons d ds ih => simp only [List.foldl_cons]; rw [putP_with, ih]

@[simp] theorem foldl_putP_len (L : Nat) (ds : List Nat) (t : Locals) :
    (ds.foldl (fun t d => putP L d t) t).len = t.len := by
  induction ds generalizing t with
  | nil => rfl
  | cons d ds ih => simp only [List.foldl_cons]; rw [ih, putP_len]

@[simp] theorem foldl_putP_ret (L : Nat) (ds : List Nat) (t : Locals) :
    (ds.foldl (fun t d => putP L d t) t).ret = t.ret := by
  induction ds generalizing t with
  | nil => rfl
  | cons d ds ih => simp only [List.foldl_cons]; rw [ih, putP_ret]

@[simp] theorem foldl_putP_outbuf_length (L : Nat) (ds : List Nat) (t : Locals) :
    (ds.foldl (fun t d => putP L d t) t).outbuf.length = t.outbuf.length := by
  induction ds generalizing t with
  | nil => rfl
  | cons d ds ih => simp only [List.foldl_cons]; rw [ih, putP_outbuf_length]

@[simp] theorem feed_len (L : Nat) (ds : List Nat) (s : Locals) :
    (feed L ds s).len = s.len + ds.length := rfl
@[simp] theorem feed_do_cr (L : Nat) (ds : List Nat) (s : Locals) : (feed L ds s).do_cr = 1 := rfl
@[simp] theorem feed_ret (L : Nat) (ds : List Nat) (s : Locals) : (feed L ds s).ret = s.ret := by
  simp [feed]
@[simp] theorem feed_outbuf_length (L : Nat) (ds : List Nat) (s : Locals) :
    (feed L ds s).outbuf.length = s.outbuf.length := by
  simp [feed]

theorem feed_nil (L : Nat) (s : Locals) (hc : s.do_cr = 1) : feed L [] s = s := by
  cases s; simp_all [feed]

theorem feed_pair (L a b : Nat) (s : Locals) : feed L [a, b] s = pairStep L a b s := rfl

theorem feed_single (L a : Nat) (s : Locals) (hc : s.do_cr = 1)
    (va : ndpi_is_valid_char a = true) : feed L [a] s = extStep L a s := by
  unfold feed extStep
  simp only [va, if_true, List.foldl_cons, List.foldl_nil, List.length_singleton]
  have := putP_do_cr L a s
  rw [hc] at this
  rw [← this]

theorem feed_append (L : Nat) (xs ys : List Nat) (s : Locals) :
    feed L (xs ++ ys) s = feed L ys (feed L xs s) := by
  unfold feed
  simp only [List.foldl_append, foldl_putP_with, List.length_append, Nat.add_assoc]

/-- The scan of a chain that is followed by a byte that is not a valid character
and by two more bytes: the chain is taken as one run and the run is closed. -/
theorem absScan_chain (bg : Nat → Nat → Bool) (m L : Nat) (ds : List Nat) :
    ∀ (s : Locals) (j : Nat) (r : List Nat), chain bg ds = true →
      ndpi_is_valid_char j = false → 2 ≤ r.length → (s.do_cr = 1 ∨ 2 ≤ ds.length) →
      absScan bg m L (ds ++ j :: r) s =
        if (feed L ds s).len > m then { feed L ds s with ret := 1 }
        else absScan bg m L r (rejectStep (feed L ds s)) := by
  induction ds using chain.induct bg with
  | case1 =>
    intro s j r _ hj hr hc
    have hc : s.do_cr = 1 := by simpa using hc
    match r, hr with
    | r1 :: r2 :: r3, _ =>
      rw [List.nil_append, absScan_cons3, feed_nil L s hc]
      have e : extStep L j s = s := by simp [extStep, hj]
      simp [pairOK_invalid_left bg r1 hj, hc, e]
  | case2 d =>
    intro s j r hch hj hr hc
    have hc : s.do_cr = 1 := by simpa using hc
    have vd : ndpi_is_valid_char d = true := by simpa [chain] using hch
    match r, hr with
    | r1 :: r2 :: r3, _ =>
      rw [List.singleton_append, absScan_cons3, feed_single L d s hc vd]
      simp only [pairOK_invalid_right bg d hj, Bool.false_eq_true, if_false, extStep_do_cr, hc]
      have e : absScan bg m L (j :: r1 :: r2 :: r3) (rejectStep (extStep L d s)) =
          absScan bg m L (r1 :: r2 :: r3) (rejectStep (extStep L d s)) :=
        absScan_idle_invalid bg m L j _ _ rfl hj
      simp [e]
  | case3 d1 d2 t ih =>
    intro s j r hch hj hr _
    simp only [chain, Bool.and_eq_true] at hch
    obtain ⟨hp, hch⟩ := hch
    have e : d1 :: d2 :: t = [d1, d2] ++ t := rfl
    have step : absScan bg m L (d1 :: d2 :: t ++ j :: r) s =
        absScan bg m L (t ++ j :: r) (pairStep L d1 d2 s) := by
      cases t with
      | nil => simp only [List.cons_append, List.nil_append]; rw [absScan_cons3]; simp [hp]
      | cons x t => simp only [List.cons_append]; rw [absScan_cons3]; simp [hp]
    rw [step, ih (pairStep L d1 d2 s) j r hch hj hr (Or.inl rfl), e, feed_append, feed_pair]

theorem valid_of_isdigit {d : Nat} (h : isdigit d = true) : ndpi_is_valid_char d = true := by
  simp only [isdigit, Bool.and_eq_true, decide_eq_true_eq] at h
  have hp : ispunct d = false := by
    simp only [ispunct, Bool.or_eq_false_iff, Bool.and_eq_false_iff, decide_eq_false_iff_not]
    omega
  simp [ndpi_is_valid_char, hp, isdigit, h.1, h.2]

theorem pairOK_of_isdigit (bg : Nat → Nat → Bool) {a b : Nat} (ha : isdigit a = true)
    (hb : isdigit b = true) : pairOK bg a b = true := by
  simp [pairOK, valid_of_isdigit ha, valid_of_isdigit hb, ndpi_find_non_eng_bigrams, ha, hb]

theorem chain_of_digits (bg : Nat → Nat → Bool) (ds : List Nat) :
    (∀ d ∈ ds, isdigit d = true) → chain bg ds = true := by
  induction ds using chain.induct bg with
  | case1 => intro _; rfl
  | case2 d => intro h; simpa [chain] using valid_of_isdigit (h d (by simp))
  | case3 d1 d2 t ih =>
    intro h
    simp only [chain, Bool.and_eq_true]
    exact ⟨pairOK_of_isdigit bg (h d1 (by simp)) (h d2 (by simp)),
      ih (fun d hd => h d (by simp [hd]))⟩

/-- With no run open, a payload rest without valid characters changes nothing. -/
theorem absScan_idle_all_junk (bg : Nat → Nat → Bool) (m L : Nat) (js : List Nat) (s : Locals)
    (hc : s.do_cr = 0) (hj : ∀ b ∈ js, ndpi_is_valid_char b = false) :
    absScan bg m L js s = s := by
  have := absScan_idle_junk bg m L js [] s hc hj
  rwa [List.append_nil, absScan_nil] at this

theorem foldl_putP_holds (L : Nat) (ds : List Nat) :
    ∀ (run : List Nat) (s : Locals), Holds L run s → L < s.outbuf.length →
      Holds L (run ++ ds) (ds.foldl (fun t d => putP L d t) s) := by
  induction ds with
  | nil => intro run s h _; simpa using h
  | cons d ds ih =>
    intro run s h hL
    have := ih (run ++ [d]) (putP L d s) (h.putP d hL) (by simpa using hL)
    simpa using this

/-- After a run has been fed into an empty output buffer, the buffer starts
with the bytes of the run, as many as fit. -/
theorem feed_holds (L : Nat) (ds : List Nat) (s : Locals) (ho : s.o_idx = 0)
    (hL : L < s.outbuf.length) : Holds L ds (feed L ds s) := by
  have h0 : Holds L [] s := by simp [Holds, ho]
  have := foldl_putP_holds L ds [] s h0 hL
  simpa [Holds, feed] using this

theorem feed_outbuf_take (L : Nat) (ds : List Nat) (s : Locals) (ho : s.o_idx = 0)
    (hL : L < s.outbuf.length) (hk : ds.length ≤ L) :
    (feed L ds s).outbuf.take ds.length = ds := by
  obtain ⟨h1, h2⟩ := feed_holds L ds s ho hL
  have : (feed L ds s).o_idx = ds.length := by omega
  rw [this] at h2
  rw [h2, List.take_length]

theorem Idle.reject_feed (L : Nat) (ds : List Nat) {s : Locals} (h : Idle s) :
    Idle (rejectStep (feed L ds s)) :=
  ⟨rfl, rfl, rfl, by simpa [rejectStep] using h.r0⟩

/-- A run of digits that is not longer than the threshold, followed by bytes
that are no valid characters, is scanned and rejected: the scan goes on after it
with no run open and a buffer of the same size. -/
theorem absScan_rejected_digits (bg : Nat → Nat → Bool) (m L : Nat) (d1 j1 x : List Nat)
    (s : Locals) (hs : Idle s) (hd : ∀ d ∈ d1, isdigit d = true) (hk : d1.length ≤ m)
    (hj : ∀ b ∈ j1, ndpi_is_valid_char b = false) (hj1 : 1 ≤ j1.length) (hx : 2 ≤ x.length) :
    ∃ s1, absScan bg m L (d1 ++ (j1 ++ x)) s = absScan bg m L x s1 ∧ Idle s1 ∧
      s1.outbuf.length = s.outbuf.length := by
  match j1, hj1, hj with
  | j :: t, _, hj =>
    have hjv : ndpi_is_valid_char j = false := hj j (by simp)
    have htv : ∀ b ∈ t, ndpi_is_valid_char b = false := fun b hb => hj b (by simp [hb])
    match d1, hd, hk with
    | [], _, _ =>
      refine ⟨s, ?_, hs, rfl⟩
      rw [List.nil_append]
      exact absScan_idle_junk bg m L (j :: t) x s hs.cr hj
    | [d], _, _ =>
      refine ⟨s, ?_, hs, rfl⟩
      rw [List.singleton_append, List.cons_append,
        absScan_idle_skip bg m L d j _ s hs.cr (pairOK_invalid_right bg d hjv)]
      exact absScan_idle_junk bg m L (j :: t) x s hs.cr hj
    | a :: b :: ds, hd, hk =>
      refine ⟨rejectStep (feed L (a :: b :: ds) s), ?_, hs.reject_feed L _, by simp [rejectStep]⟩
      rw [List.cons_append j, absScan_chain bg m L (a :: b :: ds) s j (t ++ x)
        (chain_of_digits bg _ hd) hjv (by simp; omega) (Or.inr (by simp))]
      have : ¬ (feed L (a :: b :: ds) s).len > m := by
        rw [feed_len, hs.len0]; omega
      rw [if_neg this]
      exact absScan_idle_junk bg m L t x _ rfl htv

/-- A chain longer than the threshold that is followed by a byte that is not a
valid character and by two more bytes is accepted. -/
theorem absScan_chain_found (bg : Nat → Nat → Bool) (m L : Nat) (ds : List Nat) (s : Locals)
    (j : Nat) (t : List Nat) (hch : chain bg ds = true) (hj : ndpi_is_valid_char j = false)
    (ht : 2 ≤ t.length) (hk : 2 ≤ ds.length) (hs : s.len = 0) (hm : m < ds.length) :
    absScan bg m L (ds ++ j :: t) s = { feed L ds s with ret := 1 } := by
  rw [absScan_chain bg m L ds s j t hch hj ht (Or.inr hk)]
  have : (feed L ds s).len > m := by rw [feed_len, hs]; omega
  rw [if_pos this]

/-! ## Properties of every scan -/

theorem extStep_len (L a : Nat) (s : Locals) :
    (extStep L a s).len = if ndpi_is_valid_char a then s.len + 1 else s.len := by
  unfold extStep; split <;> simp

/-- The verdict, the run flag and the run length do not depend on the output
buffer or on its capacity. -/
theorem absScan_control (bg : Nat → Nat → Bool) (m L1 L2 : Nat) (rest : List Nat)
    (s1 : Locals) :
    ∀ (s2 : Locals), s1.ret = s2.ret → s1.do_cr = s2.do_cr → s1.len = s2.len →
      (absScan bg m L1 rest s1).ret = (absScan bg m L2 rest s2).ret ∧
      (absScan bg m L1 rest s1).do_cr = (absScan bg m L2 rest s2).do_cr ∧
      (absScan bg m L1 rest s1).len = (absScan bg m L2 rest s2).len := by
  induction rest, s1 using absScan.induct bg m L1 with
  | case1 a b c tl s hp ih =>
    intro s2 hr hc hl
    rw [absScan_cons3, absScan_cons3, if_pos hp, if_pos hp]
    exact ih (pairStep L2 a b s2) (by simpa [pairStep] using hr) rfl (by simp [pairStep, hl])
  | case2 a b c tl s hp hc hm =>
    intro s2 hr hcr hl
    have hc2 : s2.do_cr ≠ 0 := by rw [← hcr]; exact hc
    have hm2 : (extStep L2 a s2).len > m := by
      rw [extStep_len, ← hl, ← extStep_len L1]; exact hm
    rw [absScan_cons3, absScan_cons3, if_neg hp, if_neg hp, if_pos hc, if_pos hc2, if_pos hm,
      if_pos hm2]
    refine ⟨rfl, ?_, ?_⟩
    · simp [hcr]
    · show (extStep L1 a s).len = (extStep L2 a s2).len
      rw [extStep_len, extStep_len, hl]
  | case3 a b c tl s hp hc hm ih =>
    intro s2 hr hcr hl
    have hc2 : s2.do_cr ≠ 0 := by rw [← hcr]; exact hc
    have hm2 : ¬ (extStep L2 a s2).len > m := by
      rw [extStep_len, ← hl, ← extStep_len L1]; exact hm
    rw [absScan_cons3, absScan_cons3, if_neg hp, if_neg hp, if_pos hc, if_pos hc2, if_neg hm,
      if_neg hm2]
    exact ih (rejectStep (extStep L2 a s2)) (by simpa [rejectStep] using hr) rfl rfl
  | case4 a b c tl s hp hc ih =>
    intro s2 hr hcr hl
    have hc2 : ¬ s2.do_cr ≠ 0 := by rw [← hcr]; exact hc
    rw [absScan_cons3, absScan_cons3, if_neg hp, if_neg hp, if_neg hc, if_neg hc2]
    exact ih s2 hr hcr hl
  | case5 t s hne =>
    intro s2 hr hcr hl
    rw [absScan_short bg m L1 hne, absScan_short bg m L2 hne]
    exact ⟨hr, hcr, hl⟩

/-- The write position stays below the reserved last slot and the buffer keeps
its size. -/
theorem absScan_o_idx (bg : Nat → Nat → Bool) (m L : Nat) (rest : List Nat) (s : Locals) :
    s.o_idx ≤ L →
      (absScan bg m L rest s).o_idx ≤ L ∧
      (absScan bg m L rest s).outbuf.length = s.outbuf.length := by
  have hput : ∀ (c : Nat) (t : Locals), t.o_idx ≤ L → (putP L c t).o_idx ≤ L := by
    intro c t ht
    unfold putP
    split
    · simp; omega
    · exact ht
  have hext : ∀ (c : Nat) (t : Locals), t.o_idx ≤ L → (extStep L c t).o_idx ≤ L := by
    intro c t ht
    unfold extStep
    split
    · exact hput c t ht
    · exact ht
  induction rest, s using absScan.induct bg m L with
  | case1 a b c tl s hp ih =>
    intro ho
    rw [absScan_cons3, if_pos hp]
    have := ih (by simpa [pairStep] using hput b _ (hput a s ho))
    simpa [pairStep] using this
  | case2 a b c tl s hp hc hm =>
    intro ho
    rw [absScan_cons3, if_neg hp, if_pos hc, if_pos hm]
    exact ⟨hext a s ho, by simp⟩
  | case3 a b c tl s hp hc hm ih =>
    intro ho
    rw [absScan_cons3, if_neg hp, if_pos hc, if_neg hm]
    have := ih (by simp [rejectStep])
    simpa [rejectStep] using this
  | case4 a b c tl s hp hc ih =>
    intro ho
    rw [absScan_cons3, if_neg hp, if_neg hc]
    exact ih ho
  | case5 t s hne =>
    intro ho
    rw [absScan_short bg m L hne]
    exact ⟨ho, rfl⟩

/-- Whenever no run is open, the output buffer is empty, provided it was so at
the start. -/
theorem absScan_idle_sentinel (bg : Nat → Nat → Bool) (m L : Nat) (rest : List Nat)
    (s : Locals) :
    0 < s.outbuf.length → (s.do_cr = 0 → s.outbuf[0]? = some 0) →
      (absScan bg m L rest s).do_cr = 0 → (absScan bg m L rest s).outbuf[0]? = some 0 := by
  induction rest, s using absScan.induct bg m L with
  | case1 a b c tl s hp ih =>
    intro hl _ hcr
    rw [absScan_cons3, if_pos hp] at hcr ⊢
    exact ih (by simpa [pairStep] using hl) (by simp [pairStep]) hcr
  | case2 a b c tl s hp hc hm =>
    intro hl _ hcr
    rw [absScan_cons3, if_neg hp, if_pos hc, if_pos hm] at hcr
    simp at hcr
    exact absurd hcr hc
  | case3 a b c tl s hp hc hm ih =>
    intro hl _ hcr
    rw [absScan_cons3, if_neg hp, if_pos hc, if_neg hm] at hcr ⊢
    refine ih (by simpa [rejectStep] using hl) (fun _ => ?_) hcr
    simp [rejectStep, List.getElem?_set, hl]
  | case4 a b c tl s hp hc ih =>
    intro hl h0 hcr
    rw [absScan_cons3, if_neg hp, if_neg hc] at hcr ⊢
    exact ih hl h0 hcr
  | case5 t s hne =>
    intro hl h0 hcr
    rw [absScan_short bg m L hne] at hcr ⊢
    exact h0 hcr

/-- The three ways a call can go: the early return on an empty payload, the
out-of-bounds read on a payload of one byte, and the regular scan. -/
theorem scan_cases (bg : Nat → Nat → Bool) (p out : List Nat) (m : Nat)
    (hp : p.length < 2 ^ 32) (hc1 : 1 ≤ out.length) (hc : out.length < 2 ^ 32) :
    (p.length = 0 ∧ ndpi_has_human_readeable_string bg p p.length m out out.length
        = .ok (initial_locals out)) ∨
    (p.length = 1 ∧ ndpi_has_human_readeable_string bg p p.length m out out.length
        = .error (.oob_read 1)) ∨
    (2 ≤ p.length ∧ ∃ r, ndpi_has_human_readeable_string bg p p.length m out out.length
        = .ok r ∧
      noI r = absScan bg m (out.length - 1) p (initial_locals (out.set (out.length - 1) 0))) := by
  match p, hp with
  | [], _ => exact Or.inl ⟨rfl, scan_empty bg [] out m out.length⟩
  | [a], _ => exact Or.inr (Or.inl ⟨rfl, scan_one bg a out m hc1 hc⟩)
  | a :: b :: t, hp =>
    exact Or.inr (Or.inr ⟨by simp, scan_normal bg (a :: b :: t) out m (by simp) hp hc1 hc⟩)

theorem putP_last_slot {L c : Nat} {s : Locals} (h : s.outbuf[L]? = some 0) (ho : s.o_idx ≤ L) :
    (putP L c s).outbuf[L]? = some 0 ∧ (putP L c s).o_idx ≤ L := by
  unfold putP
  split
  · next hlt =>
    refine ⟨?_, by simp; omega⟩
    simp only
    rw [List.getElem?_set_ne (by omega)]
    exact h
  · exact ⟨h, ho⟩

theorem set_zero_last_slot {L : Nat} {ob : List Nat} (h : ob[L]? = some 0) :
    (ob.set 0 0)[L]? = some 0 := by
  rw [List.getElem?_set]
  split
  · next h0 =>
    subst h0
    have : 0 < ob.length := by
      rcases Nat.lt_or_ge 0 ob.length with hl | hl
      · exact hl
      · rw [List.getElem?_eq_none hl] at h; cases h
    rw [if_pos this]
  · exact h

/-- The reserved last slot of the output buffer keeps the sentinel during the scan. -/
theorem absScan_last_slot (bg : Nat → Nat → Bool) (m L : Nat) (rest : List Nat) (s : Locals) :
    s.outbuf[L]? = some 0 → s.o_idx ≤ L → (absScan bg m L rest s).outbuf[L]? = some 0 := by
  induction rest, s using absScan.induct bg m L with
  | case1 a b c tl s hp ih =>
    intro h ho
    rw [absScan_cons3, if_pos hp]
    obtain ⟨h1, ho1⟩ := putP_last_slot (c := a) h ho
    obtain ⟨h2, ho2⟩ := putP_last_slot (c := b) h1 ho1
    exact ih (by simpa [pairStep] using h2) (by simpa [pairStep] using ho2)
  | case2 a b c tl s hp hc hm =>
    intro h ho
    rw [absScan_cons3, if_neg hp, if_pos hc, if_pos hm]
    show (extStep L a s).outbuf[L]? = some 0
    unfold extStep
    split
    · exact (putP_last_slot (c := a) h ho).1
    · exact h
  | case3 a b c tl s hp hc hm ih =>
    intro h ho
    rw [absScan_cons3, if_neg hp, if_pos hc, if_neg hm]
    refine ih ?_ (Nat.zero_le _)
    show ((extStep L a s).outbuf.set 0 0)[L]? = some 0
    apply set_zero_last_slot
    unfold extStep
    split
    · exact (putP_last_slot (c := a) h ho).1
    · exact h
  | case4 a b c tl s hp hc ih =>
    intro h ho
    rw [absScan_cons3, if_neg hp, if_neg hc]
    exact ih h ho
  | case5 t s hne =>
    intro h _
    rw [absScan_short bg m L hne]
    exact h

/-- Once a run has been accepted, nothing behind the position where it was
closed matters: bytes appended to the payload do not change the result. -/
theorem absScan_found_append (bg : Nat → Nat → Bool) (m L : Nat) (rest : List Nat)
    (s : Locals) (ext : List Nat) :
    s.ret = 0 → (absScan bg m L rest s).ret = 1 →
      absScan bg m L (rest ++ ext) s = absScan bg m L rest s := by
  induction rest, s using absScan.induct bg m L with
  | case1 a b c tl s hp ih =>
    intro hr hf
    rw [absScan_cons3, if_pos hp] at hf
    simp only [List.cons_append]
    rw [absScan_cons3, absScan_cons3, if_pos hp, if_pos hp]
    exact ih (by simpa [pairStep] using hr) hf
  | case2 a b c tl s hp hc hm =>
    intro hr hf
    simp only [List.cons_append]
    rw [absScan_cons3, absScan_cons3, if_neg hp, if_neg hp, if_pos hc, if_pos hc, if_pos hm,
      if_pos hm]
  | case3 a b c tl s hp hc hm ih =>
    intro hr hf
    rw [absScan_cons3, if_neg hp, if_pos hc, if_neg hm] at hf
    simp only [List.cons_append]
    rw [absScan_cons3, absScan_cons3, if_neg hp, if_neg hp, if_pos hc, if_pos hc, if_neg hm,
      if_neg hm]
    exact ih (by simpa [rejectStep] using hr) hf
  | case4 a b c tl s hp hc ih =>
    intro hr hf
    rw [absScan_cons3, if_neg hp, if_neg hc] at hf
    simp only [List.cons_append]
    rw [absScan_cons3, absScan_cons3, if_neg hp, if_neg hp, if_neg hc, if_neg hc]
    exact ih hr hf
  | case5 t s hne =>
    intro hr hf
    rw [absScan_short bg m L hne] at hf
    omega

theorem rd_append_left {q : List Nat} (t : List Nat) {i : Nat} (h : i < q.length) :
    rd (q ++ t) i = rd q i := by
  unfold rd
  rw [List.getElem?_append_left h]

/-- An iteration at a position `i` reads `buffer[i]` and `buffer[i+1]` only. -/
theorem loop_body_append (bg : Nat → Nat → Bool) (q t : List Nat) (m L : Nat) (s : Locals)
    (h : s.i + 1 < q.length) (h32 : q.length < 2 ^ 32) :
    loop_body bg (q ++ t) m L s = loop_body bg q m L s := by
  have hu : u32 (s.i + 1) = s.i + 1 := u32_of_lt (by omega)
  have e : pair_test bg (q ++ t) s.i = pair_test bg q s.i := by
    unfold pair_test
    rw [hu, rd_append_left t (show s.i < q.length by omega), rd_append_left t h]
  unfold loop_body
  rw [e]

/-- The loop with bound `B` reads no byte behind index `B`. -/
theorem scan_loop_append (bg : Nat → Nat → Bool) (q t : List Nat) (B m L : Nat)
    (hB : B + 1 ≤ q.length) (h32 : q.length < 2 ^ 32) :
    ∀ (fuel : Nat) (s : Locals),
      scan_loop bg (q ++ t) B m L fuel s = scan_loop bg q B m L fuel s := by
  intro fuel
  induction fuel with
  | zero => intro s; rfl
  | succ fuel ih =>
    intro s
    unfold scan_loop
    by_cases hi : s.i < B
    · simp only [hi, if_true]
      rw [loop_body_append bg q t m L s (by omega) h32]
      cases loop_body bg q m L s with
      | error e => rfl
      | ok v =>
        obtain ⟨s1, brk⟩ := v
        cases brk with
        | true => rfl
        | false => exact ih _
    · simp only [hi, if_false]

/-- The call on a payload of `N ≥ 2` bytes does not depend on there being a
byte at index `N - 1`. -/
theorem scan_without_last_byte (bg : Nat → Nat → Bool) (q : List Nat) (x m : Nat)
    (out : List Nat) (C : Nat) (hq : 1 ≤ q.length) (h32 : q.length + 1 < 2 ^ 32) :
    ndpi_has_human_readeable_string bg (q ++ [x]) (q.length + 1) m out C =
      ndpi_has_human_readeable_string bg q (q.length + 1) m out C := by
  have e2 : u32 (q.length + 1 + 2 ^ 32 - 2) = q.length - 1 := by
    unfold u32; omega
  unfold ndpi_has_human_readeable_string
  rw [e2]
  simp only [Nat.le_zero_eq, Nat.add_one_ne_zero, if_false]
  cases wr out (u32 (C + 2 ^ 32 - 1)) 0 with
  | error e => rfl
  | ok ob => exact scan_loop_append bg q [x] (q.length - 1) m _ (by omega) (by omega) _ _

theorem SameWrites.set {a b x y : List Nat} (h : SameWrites a b x y)
    (hl : x.length = y.length) (i v : Nat) : SameWrites a b (x.set i v) (y.set i v) := by
  intro k
  by_cases hk : i = k
  · left
    rw [List.getElem?_set, List.getElem?_set, if_pos hk, if_pos hk, hl]
  · rw [List.getElem?_set_ne hk, List.getElem?_set_ne hk]
    exact h k

theorem Twin.after_put {a b : List Nat} {s1 s2 : Locals} (h : Twin a b s1 s2) (L c : Nat) :
    Twin a b (putP L c s1) (putP L c s2) := by
  unfold NDPI.putP
  rw [← h.o]
  split
  · exact ⟨h.cr, h.len, by simp [h.o], by simp [h.ln], by
      have := h.rel.set h.ln s1.o_idx c
      simpa using this⟩
  · exact h

theorem Twin.after_pair {a b : List Nat} {s1 s2 : Locals} (h : Twin a b s1 s2) (L c d : Nat) :
    Twin a b (pairStep L c d s1) (pairStep L c d s2) := by
  have h2 := (h.after_put L c).after_put L d
  exact ⟨rfl, by simp [NDPI.pairStep, h.len], h2.o, h2.ln, h2.rel⟩

theorem Twin.after_ext {a b : List Nat} {s1 s2 : Locals} (h : Twin a b s1 s2) (L c : Nat) :
    Twin a b (extStep L c s1) (extStep L c s2) := by
  unfold NDPI.extStep
  split
  · have h2 := h.after_put L c
    exact ⟨h2.cr, by simp [h.len], h2.o, h2.ln, h2.rel⟩
  · exact h

theorem Twin.after_reject {a b : List Nat} {s1 s2 : Locals} (h : Twin a b s1 s2) :
    Twin a b (rejectStep s1) (rejectStep s2) :=
  ⟨rfl, rfl, rfl, by simp [NDPI.rejectStep, h.ln], h.rel.set h.ln 0 0⟩

/-- Two scans of the same payload into two output buffers of the same size make
the same writes. -/
theorem absScan_twin (bg : Nat → Nat → Bool) (m L : Nat) (rest : List Nat) (s1 : Locals) :
    ∀ (s2 : Locals) (a b : List Nat), Twin a b s1 s2 →
      Twin a b (absScan bg m L rest s1) (absScan bg m L rest s2) := by
  induction rest, s1 using absScan.induct bg m L with
  | case1 c d e tl s hp ih =>
    intro s2 a b h
    rw [absScan_cons3, absScan_cons3, if_pos hp, if_pos hp]
    exact ih _ a b (h.after_pair L c d)
  | case2 c d e tl s hp hc hm =>
    intro s2 a b h
    have hx := h.after_ext L c
    have hc2 : s2.do_cr ≠ 0 := by rw [← h.cr]; exact hc
    have hm2 : (extStep L c s2).len > m := by rw [← hx.len]; exact hm
    rw [absScan_cons3, absScan_cons3, if_neg hp, if_neg hp, if_pos hc, if_pos hc2, if_pos hm,
      if_pos hm2]
    exact ⟨hx.cr, hx.len, hx.o, hx.ln, hx.rel⟩
  | case3 c d e tl s hp hc hm ih =>
    intro s2 a b h
    have hx := h.after_ext L c
    have hc2 : s2.do_cr ≠ 0 := by rw [← h.cr]; exact hc
    have hm2 : ¬ (extStep L c s2).len > m := by rw [← hx.len]; exact hm
    rw [absScan_cons3, absScan_cons3, if_neg hp, if_neg hp, if_pos hc, if_pos hc2, if_neg hm,
      if_neg hm2]
    exact ih _ a b hx.after_reject
  | case4 c d e tl s hp hc ih =>
    intro s2 a b h
    have hc2 : ¬ s2.do_cr ≠ 0 := by rw [← h.cr]; exact hc
    rw [absScan_cons3, absScan_cons3, if_neg hp, if_neg hp, if_neg hc, if_neg hc2]
    exact ih s2 a b h
  | case5 t s hne =>
    intro s2 a b h
    rw [absScan_short bg m L hne, absScan_short bg m L hne]
    exact h

/-! ## The states of the loop -/

theorem putP_o_idx_min {L c k : Nat} {s : Locals} (h : s.o_idx = min k L) :
    (putP L c s).o_idx = min (k + 1) L := by
  unfold putP
  split
  · simp only; omega
  · omega

theorem rd_ok_lt {p : List Nat} {i a : Nat} (h : rd p i = .ok a) : i < p.length := by
  unfold rd at h
  rcases Nat.lt_or_ge i p.length with hl | hl
  · exact hl
  · rw [List.getElem?_eq_none hl] at h
    cases h

theorem drop_of_rd {p : List Nat} {i a : Nat} (h : rd p i = .ok a) :
    ∃ t, p.drop i = a :: t := by
  have hl := rd_ok_lt h
  refine ⟨p.drop (i + 1), ?_⟩
  have hg : p[i]? = some p[i] := List.getElem?_eq_getElem hl
  unfold rd at h
  rw [hg] at h
  injection h with h
  rw [← h]
  exact List.drop_eq_getElem_cons hl

/-- An iteration on a byte that is not a valid character does not look at the
byte behind it. -/
theorem loop_body_eq_invalid {g : Nat → Nat → Bool} {p : List Nat} {m L a : Nat} {s : Locals}
    (h : WF L s) (h0 : rd p s.i = .ok a) (va : ndpi_is_valid_char a = false) (b : Nat) :
    loop_body g p m L s = .ok (bodyP g m L a b s) := by
  have hpos : 0 < s.outbuf.length := by have := h.Llen; omega
  have hw0 : wr s.outbuf 0 0 = .ok (s.outbuf.set 0 0) := wr_eq hpos
  unfold loop_body pair_test bodyP pairOK
  rw [h0]
  by_cases hc : s.do_cr = 0
  · simp [va, hc, close_run]
  · by_cases hm : s.len > m
    · simp [va, hc, close_run, extStep, hm]
    · simp [va, hc, close_run, extStep, hm, hw0, h.r0, h.bo, rejectStep]

/-- Every iteration that ends without fault is a step of `bodyP` on the bytes at
the scan position. -/
theorem loop_body_cases {bg : Nat → Nat → Bool} {p : List Nat} {m L : Nat} {s s1 : Locals}
    {brk : Bool} (h : WF L s) (hn : p.length < 2 ^ 32)
    (hb : loop_body bg p m L s = .ok (s1, brk)) :
    ∃ a b, bodyP bg m L a b s = (s1, brk) ∧ s.i < p.length ∧ rd p s.i = .ok a ∧
      (ndpi_is_valid_char a = true → rd p (s.i + 1) = .ok b) := by
  cases h0 : rd p s.i with
  | error e =>
    unfold loop_body pair_test at hb
    rw [h0] at hb
    cases hb
  | ok a =>
    have hl := rd_ok_lt h0
    have hu : u32 (s.i + 1) = s.i + 1 := u32_of_lt (by omega)
    by_cases va : ndpi_is_valid_char a = true
    · cases h1 : rd p (s.i + 1) with
      | error e =>
        unfold loop_body pair_test at hb
        rw [h0, hu, h1] at hb
        simp [va] at hb
      | ok b =>
        obtain ⟨t, ht⟩ := drop_of_rd h0
        obtain ⟨t1, ht1⟩ := drop_of_rd h1
        have ht2 : p.drop s.i = a :: b :: t1 := by
          rw [ht, ← drop_succ_of_drop ht, ht1]
        rw [loop_body_eq h ht2 hn] at hb
        injection hb with hb
        exact ⟨a, b, hb, hl, rfl, fun _ => rfl⟩
    · have va : ndpi_is_valid_char a = false := by simpa using va
      rw [loop_body_eq_invalid h h0 va 0] at hb
      injection hb with hb
      exact ⟨a, 0, hb, hl, rfl, fun hv => by rw [va] at hv; cases hv⟩

theorem extStep_o_idx_min {L a : Nat} {s : Locals} (h : s.o_idx = min s.len L) :
    (extStep L a s).o_idx = min (extStep L a s).len L := by
  unfold extStep
  split
  · exact putP_o_idx_min h
  · exact h

/-- An iteration that does not leave the loop keeps the invariant of the loop heads. -/
theorem bodyP_next_inv {bg : Nat → Nat → Bool} {m L a b : Nat} {s s1 : Locals}
    (h : LoopInv L s) (hb : bodyP bg m L a b s = (s1, false)) (h1 : s.i + 1 < 2 ^ 32)
    (h2 : pairOK bg a b = true → s.i + 2 < 2 ^ 32) :
    LoopInv L { s1 with i := u32 (s1.i + 1) } := by
  unfold bodyP at hb
  by_cases hp : pairOK bg a b = true
  · rw [if_pos hp] at hb
    injection hb with hb _
    subst hb
    have hu : u32 (s.i + 1 + 1) = s.i + 2 := u32_of_lt (h2 hp)
    simp only [hu]
    refine ⟨pairStep_WF h.wf, ?_, ?_⟩
    · show (putP L b (putP L a s)).o_idx = min (s.len + 2) L
      exact putP_o_idx_min (putP_o_idx_min h.o)
    · intro hc
      simp [pairStep] at hc
  · rw [if_neg hp] at hb
    have hu : u32 (s.i + 1) = s.i + 1 := u32_of_lt h1
    by_cases hc : s.do_cr ≠ 0
    · rw [if_pos hc] at hb
      by_cases hm : (extStep L a s).len > m
      · rw [if_pos hm] at hb
        injection hb with _ hb
        cases hb
      · rw [if_neg hm] at hb
        injection hb with hb _
        subst hb
        refine ⟨reject_ext_WF h.wf _, ?_, fun _ => rfl⟩
        show (0 : Nat) = min 0 L
        omega
    · rw [if_neg hc] at hb
      injection hb with hb _
      subst hb
      simp only [hu]
      exact ⟨⟨h.wf.bo, h.wf.r0, h.wf.oL, h.wf.Llen, h.wf.L32, Nat.le_succ_of_le h.wf.leni⟩,
        h.o, h.idle⟩

/-- An iteration leaves the loop only by accepting the open run, the byte at the
scan position included if it is a valid character. -/
theorem bodyP_break {bg : Nat → Nat → Bool} {m L a b : Nat} {s s1 : Locals}
    (hb : bodyP bg m L a b s = (s1, true)) :
    s1 = { extStep L a s with ret := 1 } ∧ s.do_cr ≠ 0 ∧ pairOK bg a b = false ∧
      m < (extStep L a s).len := by
  unfold bodyP at hb
  by_cases hp : pairOK bg a b = true
  · rw [if_pos hp] at hb
    injection hb with _ hb
    cases hb
  · rw [if_neg hp] at hb
    by_cases hc : s.do_cr ≠ 0
    · rw [if_pos hc] at hb
      by_cases hm : (extStep L a s).len > m
      · rw [if_pos hm] at hb
        injection hb with hb _
        exact ⟨hb.symm, hc, by simpa using hp, hm⟩
      · rw [if_neg hm] at hb
        injection hb with _ hb
        cases hb
    · rw [if_neg hc] at hb
      injection hb with _ hb
      cases hb

/-- The invariant holds at every loop head. -/
theorem loop_head_inv {bg : Nat → Nat → Bool} {p : List Nat} {B m L : Nat} {s0 s : Locals}
    (h0 : LoopInv L s0) (hn : p.length < 2 ^ 32) (hh : LoopHead bg p B m L s0 s) :
    LoopInv L s := by
  induction hh with
  | entry => exact h0
  | next _ _ hb ih =>
    obtain ⟨a, b, hbp, hl, _, hrd⟩ := loop_body_cases ih.wf hn hb
    refine bodyP_next_inv ih hbp (by omega) (fun hp => ?_)
    have := rd_ok_lt (hrd (pairOK_valid hp).1)
    omega

theorem LoopInv.cursor {L : Nat} {s : Locals} (h : LoopInv L s) (C : Nat) (hC : L = C - 1) :
    cursor_invariant C s := by
  subst hC
  have h1 := h.o
  have h2 := h.wf.bo
  have h3 := h.idle
  refine ⟨by omega, by omega, fun hc => ?_, fun _ => by omega⟩
  have := h3 hc
  omega

/-- The loop of a call with capacity `C ≥ 1` is entered in a state that has the
invariant. -/
theorem loop_head_of_call_inv {bg : Nat → Nat → Bool} {p out : List Nat} {n m : Nat}
    {s : Locals} (hp : p.length < 2 ^ 32) (hc1 : 1 ≤ out.length) (hc : out.length < 2 ^ 32)
    (hh : loop_head_of_call bg p n m out out.length s) :
    LoopInv (out.length - 1) s ∧
      LoopHead bg p (u32 (n + 2 ^ 32 - 2)) m (out.length - 1)
        (initial_locals (out.set (out.length - 1) 0)) s := by
  have e1 : u32 (out.length + 2 ^ 32 - 1) = out.length - 1 := by
    unfold u32; omega
  obtain ⟨_, ob, hw, hl⟩ := hh
  rw [e1] at hw hl
  rw [wr_eq (show out.length - 1 < out.length by omega)] at hw
  injection hw with hw
  subst hw
  have h0 : LoopInv (out.length - 1) (initial_locals (out.set (out.length - 1) 0)) :=
    ⟨initial_WF (by simp; omega) (by omega), by simp [initial_locals], fun _ => rfl⟩
  exact ⟨loop_head_inv h0 hp hl, hl⟩

/-- The state in which a loop returns has been reached through loop heads: it is
a loop head at which the test fails, or the state in which an iteration left
the loop by `break`. -/
theorem scan_loop_reaches (bg : Nat → Nat → Bool) (p : List Nat) (B m L : Nat) (s0 : Locals) :
    ∀ (fuel : Nat) (s r : Locals), LoopHead bg p B m L s0 s →
      scan_loop bg p B m L fuel s = .ok r →
      (LoopHead bg p B m L s0 r ∧ ¬ r.i < B) ∨
      (∃ t, LoopHead bg p B m L s0 t ∧ t.i < B ∧ loop_body bg p m L t = .ok (r, true)) := by
  intro fuel
  induction fuel with
  | zero => intro s r _ h; cases h
  | succ fuel ih =>
    intro s r hh h
    unfold scan_loop at h
    by_cases hi : s.i < B
    · simp only [hi, if_true] at h
      cases hb : loop_body bg p m L s with
      | error e => rw [hb] at h; cases h
      | ok v =>
        obtain ⟨s1, brk⟩ := v
        rw [hb] at h
        cases brk with
        | true =>
          injection h with h
          subst h
          exact Or.inr ⟨s, hh, hi, hb⟩
        | false => exact ih _ r (LoopHead.next hh hi hb) h
    · simp only [hi, if_false] at h
      injection h with h
      subst h
      exact Or.inl ⟨hh, hi⟩

/-- The state in which a call returns from the loop has been reached through the
loop heads of the call. -/
theorem call_result_reached (bg : Nat → Nat → Bool) (p out : List Nat) (n m C : Nat)
    (r : Locals) (hn : ¬ n ≤ 0)
    (h : ndpi_has_human_readeable_string bg p n m out C = .ok r) :
    (loop_head_of_call bg p n m out C r ∧ ¬ r.i < u32 (n + 2 ^ 32 - 2)) ∨
    (∃ t, loop_head_of_call bg p n m out C t ∧ t.i < u32 (n + 2 ^ 32 - 2) ∧
      loop_body bg p m (u32 (C + 2 ^ 32 - 1)) t = .ok (r, true)) := by
  unfold ndpi_has_human_readeable_string at h
  simp only [hn, if_false] at h
  cases hw : wr out (u32 (C + 2 ^ 32 - 1)) 0 with
  | error e => rw [hw] at h; cases h
  | ok ob =>
    rw [hw] at h
    rcases scan_loop_reaches bg p _ m _ (initial_locals ob) _ _ r LoopHead.entry h with
      ⟨h1, h2⟩ | ⟨t, h1, h2, h3⟩
    · exact Or.inl ⟨⟨hn, ob, hw, h1⟩, h2⟩
    · exact Or.inr ⟨t, ⟨hn, ob, hw, h1⟩, h2, h3⟩

/-! ## The punycode check -/

theorem rd_error {p : List Nat} {i : Nat} {e : Fault} (h : rd p i = .error e) :
    e = .oob_read i ∧ p.length ≤ i := by
  unfold rd at h
  rcases Nat.lt_or_ge i p.length with hl | hl
  · rw [List.getElem?_eq_getElem hl] at h
    cases h
  · rw [List.getElem?_eq_none hl] at h
    injection h with h
    exact ⟨h.symm, hl⟩

/-- A fault of the test at index `i` is a read outside the buffer at one of the
indices `i .. i+3`. -/
theorem punycode_at_error {buffer : List Nat} {i : Nat} {e : Fault}
    (h : punycode_at buffer i = .error e) :
    ∃ k, e = .oob_read k ∧ k ≤ i + 3 ∧ buffer.length ≤ k := by
  unfold punycode_at at h
  cases h0 : rd buffer i with
  | error e0 =>
    rw [h0] at h
    injection h with h
    subst h
    exact ⟨i, (rd_error h0).1, by omega, (rd_error h0).2⟩
  | ok c0 =>
    rw [h0] at h
    dsimp only at h
    split at h
    · cases h1 : rd buffer (i + 1) with
      | error e1 =>
        rw [h1] at h
        injection h with h
        subst h
        exact ⟨i + 1, (rd_error h1).1, by omega, (rd_error h1).2⟩
      | ok c1 =>
        rw [h1] at h
        dsimp only at h
        split at h
        · cases h2 : rd buffer (i + 2) with
          | error e2 =>
            rw [h2] at h
            injection h with h
            subst h
            exact ⟨i + 2, (rd_error h2).1, by omega, (rd_error h2).2⟩
          | ok c2 =>
            rw [h2] at h
            dsimp only at h
            split at h
            · cases h3 : rd buffer (i + 3) with
              | error e3 =>
                rw [h3] at h
                injection h with h
                subst h
                exact ⟨i + 3, (rd_error h3).1, by omega, (rd_error h3).2⟩
              | ok c3 => rw [h3] at h; cases h
            · cases h
        · cases h
    · cases h

/-- A fault of the loop is a read outside the buffer at an index of at most
`len + 3`; the fuel is never used up. -/
theorem punycode_loop_error (buffer : List Nat) (len : Nat) :
    ∀ (fuel i : Nat) (e : Fault), len < fuel + i → i ≤ len →
      punycode_loop buffer (len : Int) fuel i = .error e →
      ∃ k, e = .oob_read k ∧ k ≤ len + 3 ∧ buffer.length ≤ k := by
  intro fuel
  induction fuel with
  | zero =>
    intro i e hf hle _
    omega
  | succ fuel ih =>
    intro i e hf hle h
    unfold punycode_loop at h
    by_cases hi : (i : Int) < (len : Int)
    · rw [if_pos hi] at h
      have hi2 : i < len := by exact_mod_cast hi
      cases hp : punycode_at buffer (i + 1) with
      | error e1 =>
        rw [hp] at h
        injection h with h
        subst h
        obtain ⟨k, h1, h2, h3⟩ := punycode_at_error hp
        exact ⟨k, h1, by omega, h3⟩
      | ok v =>
        rw [hp] at h
        cases v with
        | true => cases h
        | false => exact ih (i + 1) e (by omega) (by omega) h
    · rw [if_neg hi] at h
      cases h

/-! ## The prefix matcher -/

theorem net_mask_eq (n : Nat) (hn : n < 32) :
    not32 (not32 0 >>> n) = (2 ^ n - 1) <<< (32 - n) := by
  interval_cases n <;> decide

theorem testBit_net_mask (n i : Nat) (hn : n < 32) :
    (not32 (not32 0 >>> n)).testBit i = (decide (32 - n ≤ i) && decide (i < 32)) := by
  rw [net_mask_eq n hn, Nat.testBit_shiftLeft, Nat.testBit_two_pow_sub_one]
  by_cases h1 : 32 - n ≤ i
  · by_cases h2 : i < 32
    · have : i - (32 - n) < n := by omega
      simp [h1, h2, this]
    · have : ¬ i - (32 - n) < n := by omega
      simp [h1, h2, this]
  · simp [h1]

/-- Two 32-bit values agree under the mask of `n` leading ones iff they agree
after a shift to the right by `32 - n`. -/
theorem and_net_mask_eq_iff (x y n : Nat) (hx : x < 2 ^ 32) (hy : y < 2 ^ 32) (hn : n < 32) :
    x &&& not32 (not32 0 >>> n) = y &&& not32 (not32 0 >>> n) ↔
      x / 2 ^ (32 - n) = y / 2 ^ (32 - n) := by
  rw [← Nat.shiftRight_eq_div_pow, ← Nat.shiftRight_eq_div_pow]
  constructor
  · intro h
    apply Nat.eq_of_testBit_eq
    intro j
    rw [Nat.testBit_shiftRight, Nat.testBit_shiftRight]
    have hb := congrArg (fun z => z.testBit (32 - n + j)) h
    simp only [Nat.testBit_and, testBit_net_mask n _ hn] at hb
    by_cases h2 : 32 - n + j < 32
    · simpa [h2] using hb
    · have hx2 : x.testBit (32 - n + j) = false :=
        Nat.testBit_lt_two_pow (Nat.lt_of_lt_of_le hx (Nat.pow_le_pow_right (by decide) (by omega)))
      have hy2 : y.testBit (32 - n + j) = false :=
        Nat.testBit_lt_two_pow (Nat.lt_of_lt_of_le hy (Nat.pow_le_pow_right (by decide) (by omega)))
      rw [hx2, hy2]
  · intro h
    apply Nat.eq_of_testBit_eq
    intro i
    simp only [Nat.testBit_and, testBit_net_mask n _ hn]
    by_cases h1 : 32 - n ≤ i
    · have hb := congrArg (fun z => z.testBit (i - (32 - n))) h
      simp only [Nat.testBit_shiftRight] at hb
      have e : 32 - n + (i - (32 - n)) = i := by omega
      rw [e] at hb
      rw [hb]
    · simp [h1]

/-! ## The labels of the TLS versions -/

theorem hex_digit_spec (d : Nat) (hd : d < 16) :
    hex_value (hex_digit d) = d ∧ hex_digit d ∈ "0123456789ABCDEF".toList := by
  interval_cases d <;> exact ⟨by decide, by decide⟩

theorem format_04X_decode (v : Nat) (hv : v < 2 ^ 16) : hex_decode (format_04X v) = v := by
  have h3 := (hex_digit_spec (v / 4096 % 16) (Nat.mod_lt _ (by decide))).1
  have h2 := (hex_digit_spec (v / 256 % 16) (Nat.mod_lt _ (by decide))).1
  have h1 := (hex_digit_spec (v / 16 % 16) (Nat.mod_lt _ (by decide))).1
  have h0 := (hex_digit_spec (v % 16) (Nat.mod_lt _ (by decide))).1
  simp only [hex_decode, format_04X, List.foldl_cons, List.foldl_nil, h3, h2, h1, h0]
  omega

theorem format_04X_digits (v : Nat) : ∀ c ∈ format_04X v, c ∈ "0123456789ABCDEF".toList := by
  intro c hc
  simp only [format_04X, List.mem_cons, List.mem_singleton, List.not_mem_nil, or_false] at hc
  rcases hc with h | h | h | h <;> rw [h] <;>
    exact (hex_digit_spec _ (Nat.mod_lt _ (by decide))).2

theorem ssl_version_unknown (version : Nat)
    (h : version ≠ 0x0300 ∧ version ≠ 0x0301 ∧ version ≠ 0x0302 ∧ version ≠ 0x0303 ∧
      version ≠ 0x0304 ∧ version ≠ 0xFB1A ∧ version ≠ 0xFEFF ∧ version ≠ 0xFEFD ∧
      ¬ (0x7F00 ≤ version ∧ version ≤ 0x7FFF)) :
    ndpi_ssl_version2str version =
      (String.mk (['T', 'L', 'S', ' ', '('] ++ format_04X version ++ [')']), 1) := by
  obtain ⟨h1, h2, h3, h4, h5, h6, h7, h8, h9⟩ := h
  have h9 : ¬ (version ≥ 0x7f00 ∧ version ≤ 0x7fff) := h9
  unfold ndpi_ssl_version2str
  rw [if_neg h1, if_neg h2, if_neg h3, if_neg h4, if_neg h5, if_neg h6, if_neg h7, if_neg h8,
    if_neg h9]
  rfl

theorem ssl_version_known (version : Nat)
    (h : ¬ (version ≠ 0x0300 ∧ version ≠ 0x0301 ∧ version ≠ 0x0302 ∧ version ≠ 0x0303 ∧
      version ≠ 0x0304 ∧ version ≠ 0xFB1A ∧ version ≠ 0xFEFF ∧ version ≠ 0xFEFD ∧
      ¬ (0x7F00 ≤ version ∧ version ≤ 0x7FFF))) :
    (ndpi_ssl_version2str version).2 = 0 ∧
      (ndpi_ssl_version2str version).1 ∈
        ["SSLv3", "TLSv1", "TLSv1.1", "TLSv1.2", "TLSv1.3", "TLSv1.3 (Fizz)", "DTLSv1.0",
          "DTLSv1.2", "TLSv1.3 (draft)"] := by
  unfold ndpi_ssl_version2str
  split_ifs with h1 h2 h3 h4 h5 h6 h7 h8 h9
  · exact ⟨rfl, by decide⟩
  · exact ⟨rfl, by decide⟩
  · exact ⟨rfl, by decide⟩
  · exact ⟨rfl, by decide⟩
  · exact ⟨rfl, by decide⟩
  · exact ⟨rfl, by decide⟩
  · exact ⟨rfl, by decide⟩
  · exact ⟨rfl, by decide⟩
  · exact ⟨rfl, by decide⟩
  · exact absurd ⟨h1, h2, h3, h4, h5, h6, h7, h8, h9⟩ h

/-! ## The search tree -/

theorem TotalOrder.eq_symm {K : Type} {compar : K → K → Int} (hc : TotalOrder compar)
    {a b : K} (h : compar a b = 0) : compar b a = 0 := by
  have h1 := hc.antisymm a b
  have h2 := hc.antisymm b a
  omega

theorem TotalOrder.lt_of_le_of_lt {K : Type} {compar : K → K → Int} (hc : TotalOrder compar)
    {a b c : K} (h1 : compar a b ≤ 0) (h2 : compar b c < 0) : compar a c < 0 := by
  have h3 := hc.trans a b c h1 (by omega)
  rcases (show compar a c < 0 ∨ compar a c = 0 by omega) with h | h
  · exact h
  · have h4 := hc.eq_symm h
    have h5 := hc.trans c a b (by omega) h1
    have h6 := (hc.antisymm b c).mp h2
    omega

theorem TotalOrder.lt_of_lt_of_le {K : Type} {compar : K → K → Int} (hc : TotalOrder compar)
    {a b c : K} (h1 : compar a b < 0) (h2 : compar b c ≤ 0) : compar a c < 0 := by
  have h3 := hc.trans a b c (by omega) h2
  rcases (show compar a c < 0 ∨ compar a c = 0 by omega) with h | h
  · exact h
  · have h4 := hc.eq_symm h
    have h5 := hc.trans b c a h2 (by omega)
    have h6 := (hc.antisymm a b).mp h1
    omega

theorem TotalOrder.lt_trans {K : Type} {compar : K → K → Int} (hc : TotalOrder compar)
    {a b c : K} (h1 : compar a b < 0) (h2 : compar b c < 0) : compar a c < 0 :=
  hc.lt_of_lt_of_le h1 (by omega)

/-- Two keys that compare equal to the same key compare equal. -/
theorem TotalOrder.eq_of_eq_of_eq {K : Type} {compar : K → K → Int} (hc : TotalOrder compar)
    {k a b : K} (h1 : compar k a = 0) (h2 : compar k b = 0) : compar a b = 0 := by
  have h3 := hc.eq_symm h1
  have h4 := hc.eq_symm h2
  have h5 := hc.trans a k b (by omega) (by omega)
  have h6 := hc.trans b k a (by omega) (by omega)
  have h7 := hc.antisymm a b
  omega

/-- The keys of a search tree are in ascending order from left to right, and a
tree with its keys in ascending order is a search tree. -/
theorem search_tree_iff_sorted {K : Type} {compar : K → K → Int} (hc : TotalOrder compar)
    (t : ndpi_node K) :
    search_tree compar t ↔ (keys t).Pairwise (fun a b => compar a b < 0) := by
  induction t with
  | null => simp [search_tree, keys]
  | node y l r ihl ihr =>
    simp only [search_tree, keys, List.pairwise_append, List.pairwise_cons, List.mem_cons,
      ihl, ihr]
    constructor
    · rintro ⟨h1, h2, h3, h4⟩
      refine ⟨h3, ⟨fun b hb => (hc.antisymm y b).mpr (h2 b hb), h4⟩, ?_⟩
      intro a ha b hb
      rcases hb with hb | hb
      · rw [hb]; exact h1 a ha
      · exact hc.lt_trans (h1 a ha) ((hc.antisymm y b).mpr (h2 b hb))
    · rintro ⟨h3, ⟨h2, h4⟩, h5⟩
      exact ⟨fun a ha => h5 a ha y (Or.inl rfl), fun b hb => (hc.antisymm y b).mp (h2 b hb),
        h3, h4⟩

theorem unlink_leftmost_keys {K : Type} (rl : ndpi_node K) :
    ∀ (rk : K) (rr : ndpi_node K),
      keys (.node rk rl rr) = (unlink_leftmost rk rl rr).1 :: keys (unlink_leftmost rk rl rr).2 := by
  induction rl with
  | null => intro rk rr; simp [unlink_leftmost, keys]
  | node lk ll lr ihl _ =>
    intro rk rr
    have h := ihl lk lr
    simp only [unlink_leftmost, keys] at h ⊢
    rw [h]
    simp

/-- The node that takes the place of a deleted node holds the keys of the two
subtrees, in their order. -/
theorem replacement_keys {K : Type} (l r : ndpi_node K) :
    keys (replacement l r) = keys l ++ keys r := by
  cases l with
  | null => simp [replacement, keys]
  | node y ll lr =>
    cases r with
    | null => simp [replacement, keys]
    | node rk rl rr =>
      cases rl with
      | null => simp [replacement, keys]
      | node lk l2 r2 =>
        have h := unlink_leftmost_keys l2 lk r2
        simp only [replacement, keys] at h ⊢
        rw [h]
        simp

/-- The two outcomes of `ndpi_tdelete` on a search tree: no key compares equal
and nothing changes, or one key is taken out of the sequence of the keys. -/
theorem tdelete_cases {K : Type} {compar : K → K → Int} (hc : TotalOrder compar) (k : K) :
    ∀ (t : ndpi_node K), search_tree compar t →
      ((ndpi_tdelete compar k t).2 = none ∧ (ndpi_tdelete compar k t).1 = t ∧
        ∀ y ∈ keys t, compar k y ≠ 0) ∨
      (∃ y A B, (ndpi_tdelete compar k t).2 = some y ∧ compar k y = 0 ∧
        keys t = A ++ y :: B ∧ keys (ndpi_tdelete compar k t).1 = A ++ B) := by
  intro t
  induction t with
  | null =>
    intro _
    exact Or.inl ⟨rfl, rfl, fun y hy => by simp [keys] at hy⟩
  | node y l r ihl ihr =>
    intro hs
    obtain ⟨hl, hr, hsl, hsr⟩ := hs
    by_cases h0 : compar k y = 0
    · right
      refine ⟨y, keys l, keys r, by simp [ndpi_tdelete, h0], h0, rfl, ?_⟩
      simp [ndpi_tdelete, h0, replacement_keys]
    · by_cases h1 : compar k y < 0
      · rcases ihl hsl with ⟨e1, e2, e3⟩ | ⟨z, A, B, e1, e2, e3, e4⟩
        · left
          refine ⟨by simp [ndpi_tdelete, h0, h1, e1], by simp [ndpi_tdelete, h0, h1, e2], ?_⟩
          intro x hx
          simp only [keys, List.mem_append, List.mem_cons] at hx
          rcases hx with hx | hx | hx
          · exact e3 x hx
          · rw [hx]; exact h0
          · have h2 := (hc.antisymm y x).mpr (hr x hx)
            have h3 := hc.lt_trans h1 h2
            omega
        · right
          refine ⟨z, A, B ++ y :: keys r, by simp [ndpi_tdelete, h0, h1, e1], e2, ?_, ?_⟩
          · simp [keys, e3]
          · simp [ndpi_tdelete, h0, h1, keys, e4]
      · have h2 : 0 < compar k y := by omega
        rcases ihr hsr with ⟨e1, e2, e3⟩ | ⟨z, A, B, e1, e2, e3, e4⟩
        · left
          refine ⟨by simp [ndpi_tdelete, h0, h1, e1], by simp [ndpi_tdelete, h0, h1, e2], ?_⟩
          intro x hx
          simp only [keys, List.mem_append, List.mem_cons] at hx
          rcases hx with hx | hx | hx
          · have h3 := (hc.antisymm y k).mpr h2
            have h4 := hc.lt_trans (hl x hx) h3
            have h5 := (hc.antisymm x k).mp h4
            omega
          · rw [hx]; exact h0
          · exact e3 x hx
        · right
          refine ⟨z, keys l ++ y :: A, B, by simp [ndpi_tdelete, h0, h1, e1], e2, ?_, ?_⟩
          · simp [keys, e3]
          · simp [ndpi_tdelete, h0, h1, keys, e4]

theorem trecurse_link {K : Type} (l : ndpi_node K) (d : Nat) :
    (if is_null l then [] else ndpi_trecurse l d) = ndpi_trecurse l d := by
  cases l with
  | null => simp [is_null, ndpi_trecurse]
  | node y a b => simp [is_null]

/-- The calls of kind `ndpi_leaf` or `ndpi_postorder` list the nodes in in-order,
with their depths. -/
theorem trecurse_inorder {K : Type} (t : ndpi_node K) :
    ∀ (d : Nat),
      ((ndpi_trecurse t d).filter
          (fun c => decide (c.which = .ndpi_leaf ∨ c.which = .ndpi_postorder))).map
        (fun c => (c.root, c.level)) = inorder_nodes t d := by
  induction t with
  | null => intro d; simp [ndpi_trecurse, inorder_nodes]
  | node y l r ihl ihr =>
    intro d
    by_cases hn : (is_null l && is_null r) = true
    · have hl : l = .null := by
        cases l with
        | null => rfl
        | node _ _ _ => simp [is_null] at hn
      have hr : r = .null := by
        cases r with
        | null => rfl
        | node _ _ _ => simp [is_null] at hn
      subst hl hr
      simp [ndpi_trecurse, is_null, inorder_nodes]
    · unfold ndpi_trecurse
      rw [if_neg hn, trecurse_link, trecurse_link]
      simp only [List.filter_append, List.map_append, ihl (d + 1), ihr (d + 1), inorder_nodes]
      simp [List.filter]

/-- The keys of the nodes in in-order are the keys from left to right. -/
theorem inorder_nodes_keys {K : Type} (t : ndpi_node K) :
    ∀ (d : Nat), (inorder_nodes t d).filterMap (fun p => key_of p.1) = keys t := by
  induction t with
  | null => intro d; simp [inorder_nodes, keys]
  | node y l r ihl ihr =>
    intro d
    simp only [inorder_nodes, keys, List.filterMap_append, List.filterMap_cons, ihl (d + 1),
      ihr (d + 1)]
    rfl

theorem inorder_nodes_length {K : Type} (t : ndpi_node K) :
    ∀ (d : Nat), (inorder_nodes t d).length = node_count t := by
  induction t with
  | null => intro d; rfl
  | node y l r ihl ihr =>
    intro d
    simp only [inorder_nodes, node_count, List.length_append, List.length_cons, ihl (d + 1),
      ihr (d + 1)]
    omega

/-! ## Statements of the specification about `ndpi_has_human_readeable_string` -/

/-- Case C1: soundness of the verdict. -/
theorem found_is_a_valid_run (bg : Nat → Nat → Bool) (p out : List Nat) (m : Nat) (r : Locals)
    (hp : p.length < 2 ^ 32) (hc1 : 1 ≤ out.length) (hc : out.length < 2 ^ 32)
    (h : ndpi_has_human_readeable_string bg p p.length m out out.length = .ok r)
    (hret : r.ret = 1) :
    ∃ s L, m < L ∧ s + L ≤ p.length ∧
      (∀ b ∈ (p.drop s).take L, ndpi_is_valid_char b = true) ∧
      r.outbuf.take (min L (out.length - 1)) = (p.drop s).take (min L (out.length - 1)) := by
  rcases Nat.lt_or_ge p.length 2 with h2 | h2
  · rcases Nat.eq_zero_or_pos p.length with h0 | h0
    · rw [h0, scan_empty] at h
      injection h with h
      rw [← h] at hret
      simp [initial_locals] at hret
    · have h1 : p.length = 1 := by omega
      obtain ⟨a, rfl⟩ := List.length_eq_one.mp h1
      rw [show [a].length = 1 from rfl, scan_one bg a out m hc1 hc] at h
      cases h
  · obtain ⟨r1, hr1, hr2⟩ := scan_normal bg p out m h2 hp hc1 hc
    rw [h] at hr1
    injection hr1 with hr1
    subst hr1
    have hf : (absScan bg m (out.length - 1) p
        (initial_locals (out.set (out.length - 1) 0))).ret = 1 := by
      rw [← hr2]; exact hret
    obtain ⟨pre1, run1, post, e, h1, _, h3, h4⟩ :=
      absScan_sound bg m (out.length - 1) p _ [] [] rfl
        (by simp [initial_locals]; omega) rfl (fun _ => rfl) (by simp)
        (by simp [Holds, initial_locals]) hf
    rw [← hr2] at h4
    have h4 : Holds (out.length - 1) run1 r := h4
    simp only [List.nil_append] at e
    have ed : (p.drop pre1.length).take run1.length = run1 := by
      rw [e, List.append_assoc, List.drop_left, List.take_left]
    refine ⟨pre1.length, run1.length, h1, ?_, ?_, ?_⟩
    · rw [e]; simp
    · rw [ed]; exact h3
    · obtain ⟨h5, h6⟩ := h4
      rw [← h5, h6]
      conv_lhs => rw [← ed]
      rw [List.take_take]
      congr 1
      omega

/-- Instance of C1: payload `"12!!!"`, threshold 0, capacity 4. -/
theorem found_is_a_valid_run_witness :
    ∃ s L, 0 < L ∧ s + L ≤ [49, 50, 33, 33, 33].length ∧
      (∀ b ∈ (([49, 50, 33, 33, 33] : List Nat).drop s).take L, ndpi_is_valid_char b = true) ∧
      ([49, 50, 7, 0] : List Nat).take (min L ([7, 7, 7, 7].length - 1)) =
        (([49, 50, 33, 33, 33] : List Nat).drop s).take (min L ([7, 7, 7, 7].length - 1)) :=
  found_is_a_valid_run (fun _ _ => false) [49, 50, 33, 33, 33] [7, 7, 7, 7] 0
    { ret := 1, i := 2, do_cr := 1, len := 2, o_idx := 2, being_o_idx := 0,
      outbuf := [49, 50, 7, 0] }
    (by decide) (by decide) (by decide) rfl rfl

/-- Case C2: strict threshold boundary. A payload of `k ≥ 2` decimal digits
followed by at least three bytes that are not valid characters is scanned without
fault, and the value returned is 1 if `k > m` and 0 otherwise. -/
theorem digits_found_iff_longer_than_threshold (bg : Nat → Nat → Bool) (ds js out : List Nat)
    (m : Nat) (hd : ∀ d ∈ ds, isdigit d = true)
    (hj : ∀ b ∈ js, ndpi_is_valid_char b = false) (hk : 2 ≤ ds.length) (hjs : 3 ≤ js.length)
    (hp : (ds ++ js).length < 2 ^ 32) (hc1 : 1 ≤ out.length) (hc : out.length < 2 ^ 32) :
    ∃ r, ndpi_has_human_readeable_string bg (ds ++ js) (ds ++ js).length m out out.length
        = .ok r ∧
      (r.ret = 1 ↔ m < ds.length) ∧ (r.ret = 0 ↔ ds.length ≤ m) := by
  obtain ⟨r, hr, hr2⟩ := scan_normal bg (ds ++ js) out m (by simp; omega) hp hc1 hc
  refine ⟨r, hr, ?_⟩
  match js, hjs, hj with
  | j :: t, hjs, hj =>
    have hjv : ndpi_is_valid_char j = false := hj j (by simp)
    have htv : ∀ b ∈ t, ndpi_is_valid_char b = false := fun b hb => hj b (by simp [hb])
    rw [absScan_chain bg m _ ds _ j t (chain_of_digits bg ds hd) hjv
      (by simp at hjs; omega) (Or.inr hk)] at hr2
    have hret : r.ret = (noI r).ret := rfl
    by_cases hm : m < ds.length
    · have hm2 : (feed (out.length - 1) ds
          (initial_locals (out.set (out.length - 1) 0))).len > m := by
        simpa [initial_locals] using hm
      rw [if_pos hm2] at hr2
      rw [hret, hr2]
      simp [hm]
    · have hm2 : ¬ (feed (out.length - 1) ds
          (initial_locals (out.set (out.length - 1) 0))).len > m := by
        simpa [initial_locals] using hm
      rw [if_neg hm2, absScan_idle_all_junk bg m _ t _ rfl htv] at hr2
      rw [hret, hr2]
      simp [rejectStep, initial_locals, hm]
      omega

/-- Instance of C2: the digits `"12"` followed by `"!!!"`, threshold 2 (a run
of exactly `m` characters). -/
theorem digits_found_iff_longer_than_threshold_witness :
    ∃ r, ndpi_has_human_readeable_string (fun _ _ => false) ([49, 50] ++ [33, 33, 33])
          ([49, 50] ++ [33, 33, 33]).length 2 [7, 7, 7, 7] [7, 7, 7, 7].length = .ok r ∧
      (r.ret = 1 ↔ 2 < [49, 50].length) ∧ (r.ret = 0 ↔ [49, 50].length ≤ 2) :=
  digits_found_iff_longer_than_threshold (fun _ _ => false) [49, 50] [33, 33, 33] [7, 7, 7, 7] 2
    (by decide) (by decide) (by decide) (by decide) (by decide) (by decide) (by decide)

/-- Case C3, counterexample: with threshold 0 the payload `"!5!!!"` has the
claimed shape (an empty first run, one byte of garbage, a second run of one
digit, three bytes of garbage), and the call returns 0: a single digit never
opens a run. -/
theorem rollback_single_digit_not_found :
    ndpi_has_human_readeable_string (fun _ _ => false) [33, 53, 33, 33, 33] 5 0
        (List.replicate 12 7) 12
      = .ok { ret := 0, i := 3, do_cr := 0, len := 0, o_idx := 0, being_o_idx := 0,
              outbuf := [7, 7, 7, 7, 7, 7, 7, 7, 7, 7, 7, 0] } := by
  rfl

/-- Case C3, amended: rejection rollback. For a payload made of at most `m`
digits, one or more bytes that are not valid characters, a second run of more
than `m` and at least two digits, and at least three bytes that are not valid
characters, the call returns 1, and if the capacity is larger than the second run
the output buffer starts with exactly the second run. -/
theorem rollback_keeps_only_accepted_run (bg : Nat → Nat → Bool)
    (d1 j1 d2 j2 out : List Nat) (m : Nat)
    (hd1 : ∀ d ∈ d1, isdigit d = true) (hk1 : d1.length ≤ m)
    (hj1 : ∀ b ∈ j1, ndpi_is_valid_char b = false) (hn1 : 1 ≤ j1.length)
    (hd2 : ∀ d ∈ d2, isdigit d = true) (hk2 : m < d2.length) (hk2' : 2 ≤ d2.length)
    (hj2 : ∀ b ∈ j2, ndpi_is_valid_char b = false) (hn2 : 3 ≤ j2.length)
    (hp : (d1 ++ (j1 ++ (d2 ++ j2))).length < 2 ^ 32)
    (hc1 : 1 ≤ out.length) (hc : out.length < 2 ^ 32) :
    ∃ r, ndpi_has_human_readeable_string bg (d1 ++ (j1 ++ (d2 ++ j2)))
          (d1 ++ (j1 ++ (d2 ++ j2))).length m out out.length = .ok r ∧
      r.ret = 1 ∧ (d2.length < out.length → r.outbuf.take d2.length = d2) := by
  obtain ⟨r, hr, hr2⟩ := scan_normal bg (d1 ++ (j1 ++ (d2 ++ j2))) out m
    (by simp; omega) hp hc1 hc
  refine ⟨r, hr, ?_⟩
  have hi : Idle (initial_locals (out.set (out.length - 1) 0)) := ⟨rfl, rfl, rfl, rfl⟩
  obtain ⟨s1, e1, hs1, hlen⟩ := absScan_rejected_digits bg m (out.length - 1) d1 j1 (d2 ++ j2)
    _ hi hd1 hk1 hj1 hn1 (by simp; omega)
  rw [e1] at hr2
  match j2, hn2, hj2 with
  | j :: t, hn2, hj2 =>
    have hjv : ndpi_is_valid_char j = false := hj2 j (by simp)
    rw [absScan_chain bg m _ d2 s1 j t (chain_of_digits bg d2 hd2) hjv
      (by simp at hn2; omega) (Or.inr hk2')] at hr2
    have hm : (feed (out.length - 1) d2 s1).len > m := by
      rw [feed_len, hs1.len0]; omega
    rw [if_pos hm] at hr2
    have hret : r.ret = (noI r).ret := rfl
    have hout : r.outbuf = (noI r).outbuf := rfl
    rw [hret, hout, hr2]
    refine ⟨rfl, fun hcap => ?_⟩
    exact feed_outbuf_take _ d2 s1 hs1.o0
      (by rw [hlen]; simp [initial_locals]; omega) (by omega)

/-- Instance of C3 as amended: payload `"123!!!456789!!!"` with threshold 5. -/
theorem rollback_keeps_only_accepted_run_witness :
    ∃ r, ndpi_has_human_readeable_string (fun _ _ => false)
          ([49, 50, 51] ++ ([33, 33, 33] ++ ([52, 53, 54, 55, 56, 57] ++ [33, 33, 33])))
          ([49, 50, 51] ++ ([33, 33, 33] ++ ([52, 53, 54, 55, 56, 57] ++ [33, 33, 33]))).length
          5 [7, 7, 7, 7, 7, 7, 7, 7] [7, 7, 7, 7, 7, 7, 7, 7].length = .ok r ∧
      r.ret = 1 ∧
      ([52, 53, 54, 55, 56, 57].length < [7, 7, 7, 7, 7, 7, 7, 7].length →
        r.outbuf.take [52, 53, 54, 55, 56, 57].length = [52, 53, 54, 55, 56, 57]) :=
  rollback_keeps_only_accepted_run (fun _ _ => false) [49, 50, 51] [33, 33, 33]
    [52, 53, 54, 55, 56, 57] [33, 33, 33] [7, 7, 7, 7, 7, 7, 7, 7] 5
    (by decide) (by decide) (by decide) (by decide) (by decide) (by decide) (by decide)
    (by decide) (by decide) (by decide) (by decide) (by decide)

/-- Case C6: the scenario `"xyz!!!helloworld###"` with threshold 4. For every
bigram set that contains he, el, ll, lo, ow, wo, or, rl and ld, whatever it says
about xy and yz, and every capacity of at least 11, the call returns 1 and the
output buffer starts with `"helloworld"`. -/
theorem scenario_helloworld (bg : Nat → Nat → Bool) (out : List Nat)
    (h_he : bg 104 101 = true) (_h_el : bg 101 108 = true) (h_ll : bg 108 108 = true)
    (_h_lo : bg 108 111 = true) (h_ow : bg 111 119 = true) (_h_wo : bg 119 111 = true)
    (h_or : bg 111 114 = true) (_h_rl : bg 114 108 = true) (h_ld : bg 108 100 = true)
    (hc1 : 11 ≤ out.length) (hc : out.length < 2 ^ 32) :
    ∃ r, ndpi_has_human_readeable_string bg
          [120, 121, 122, 33, 33, 33, 104, 101, 108, 108, 111, 119, 111, 114, 108, 100,
            35, 35, 35] 19 4 out out.length = .ok r ∧
      r.ret = 1 ∧ r.outbuf.take 10 = [104, 101, 108, 108, 111, 119, 111, 114, 108, 100] := by
  obtain ⟨r, hr, hr2⟩ := scan_normal bg
    [120, 121, 122, 33, 33, 33, 104, 101, 108, 108, 111, 119, 111, 114, 108, 100, 35, 35, 35]
    out 4 (by simp) (by simp) (by omega) hc
  refine ⟨r, hr, ?_⟩
  have hi : Idle (initial_locals (out.set (out.length - 1) 0)) := ⟨rfl, rfl, rfl, rfl⟩
  have v33 : ndpi_is_valid_char 33 = false := by decide
  have v35 : ndpi_is_valid_char 35 = false := by decide
  have v122 : ndpi_is_valid_char 122 = true := by decide
  -- the scan of "xyz!!!" ends with no run open
  have hpre : ∃ s1, absScan bg 4 (out.length - 1)
      [120, 121, 122, 33, 33, 33, 104, 101, 108, 108, 111, 119, 111, 114, 108, 100, 35, 35, 35]
      (initial_locals (out.set (out.length - 1) 0)) =
        absScan bg 4 (out.length - 1)
          [104, 101, 108, 108, 111, 119, 111, 114, 108, 100, 35, 35, 35] s1 ∧
      Idle s1 ∧ s1.outbuf.length = out.length := by
    by_cases hxy : pairOK bg 120 121 = true
    · refine ⟨rejectStep (feed (out.length - 1) [120, 121, 122] _), ?_,
        hi.reject_feed _ _, by simp [rejectStep, initial_locals]⟩
      have hch : chain bg [120, 121, 122] = true := by simp [chain, hxy, v122]
      have := absScan_chain bg 4 (out.length - 1) [120, 121, 122]
        (initial_locals (out.set (out.length - 1) 0)) 33
        [33, 33, 104, 101, 108, 108, 111, 119, 111, 114, 108, 100, 35, 35, 35] hch v33
        (by simp) (Or.inr (by simp))
      simp only [List.cons_append, List.nil_append] at this
      rw [this, if_neg (by simp [initial_locals])]
      exact absScan_idle_junk bg 4 _ [33, 33] _ _ rfl (by simp [v33])
    · have hxy : pairOK bg 120 121 = false := by simpa using hxy
      rw [absScan_idle_skip bg 4 _ 120 121 _ _ rfl hxy]
      by_cases hyz : pairOK bg 121 122 = true
      · refine ⟨rejectStep (feed (out.length - 1) [121, 122] _), ?_,
          hi.reject_feed _ _, by simp [rejectStep, initial_locals]⟩
        have hch : chain bg [121, 122] = true := by simp [chain, hyz]
        have := absScan_chain bg 4 (out.length - 1) [121, 122]
          (initial_locals (out.set (out.length - 1) 0)) 33
          [33, 33, 104, 101, 108, 108, 111, 119, 111, 114, 108, 100, 35, 35, 35] hch v33
          (by simp) (Or.inr (by simp))
        simp only [List.cons_append, List.nil_append] at this
        rw [this, if_neg (by simp [initial_locals])]
        exact absScan_idle_junk bg 4 _ [33, 33] _ _ rfl (by simp [v33])
      · have hyz : pairOK bg 121 122 = false := by simpa using hyz
        refine ⟨_, ?_, hi, by simp [initial_locals]⟩
        rw [absScan_idle_skip bg 4 _ 121 122 _ _ rfl hyz,
          absScan_idle_skip bg 4 _ 122 33 _ _ rfl (pairOK_invalid_right bg 122 v33)]
        exact absScan_idle_junk bg 4 _ [33, 33, 33] _ _ rfl (by simp [v33])
  obtain ⟨s1, e1, hs1, hlen⟩ := hpre
  have hch : chain bg [104, 101, 108, 108, 111, 119, 111, 114, 108, 100] = true := by
    simp [chain, pairOK, ndpi_find_non_eng_bigrams, ndpi_is_other_char, isdigit, tolower,
      h_he, h_ll, h_ow, h_or, h_ld]
    decide
  have hfound := absScan_chain_found bg 4 (out.length - 1)
    [104, 101, 108, 108, 111, 119, 111, 114, 108, 100] s1 35 [35, 35] hch v35 (by simp)
    (by simp) hs1.len0 (by simp)
  simp only [List.cons_append, List.nil_append] at hfound
  rw [e1, hfound] at hr2
  have hret : r.ret = (noI r).ret := rfl
  have hout : r.outbuf = (noI r).outbuf := rfl
  rw [hret, hout, hr2]
  refine ⟨rfl, ?_⟩
  exact feed_outbuf_take (out.length - 1) [104, 101, 108, 108, 111, 119, 111, 114, 108, 100]
    s1 hs1.o0 (by rw [hlen]; omega) (by simp; omega)

/-- Instance of C6: the bigram set that contains every pair, capacity 11. -/
theorem scenario_helloworld_witness :
    ∃ r, ndpi_has_human_readeable_string (fun _ _ => true)
          [120, 121, 122, 33, 33, 33, 104, 101, 108, 108, 111, 119, 111, 114, 108, 100,
            35, 35, 35] 19 4 (List.replicate 11 0) (List.replicate 11 0).length = .ok r ∧
      r.ret = 1 ∧ r.outbuf.take 10 = [104, 101, 108, 108, 111, 119, 111, 114, 108, 100] :=
  scenario_helloworld (fun _ _ => true) (List.replicate 11 0) rfl rfl rfl rfl rfl rfl rfl rfl rfl
    (by decide) (by decide)

/-- Case C7: the logical length governs acceptance. The verdict of a call (or
the fault in which it ends) is the same for all output buffers of capacity at
least 1; and with capacity 3 the run `"0123456789"` (threshold 4) is accepted,
the output buffer holding its first two characters and the sentinel. -/
theorem verdict_independent_of_capacity (bg : Nat → Nat → Bool) (p out1 out2 : List Nat)
    (m : Nat) (hp : p.length < 2 ^ 32)
    (h1 : 1 ≤ out1.length) (h1' : out1.length < 2 ^ 32)
    (h2 : 1 ≤ out2.length) (h2' : out2.length < 2 ^ 32) :
    (ndpi_has_human_readeable_string bg p p.length m out1 out1.length).map (fun r => r.ret) =
      (ndpi_has_human_readeable_string bg p p.length m out2 out2.length).map (fun r => r.ret) ∧
    ndpi_has_human_readeable_string bg
        [48, 49, 50, 51, 52, 53, 54, 55, 56, 57, 33, 33, 33] 13 4 [7, 7, 7] 3
      = .ok { ret := 1, i := 10, do_cr := 1, len := 10, o_idx := 2, being_o_idx := 0,
              outbuf := [48, 49, 0] } := by
  refine ⟨?_, rfl⟩
  rcases scan_cases bg p out1 m hp h1 h1' with ⟨hl, ha⟩ | ⟨hl, ha⟩ | ⟨hl, ra, ha, ha2⟩
  · rcases scan_cases bg p out2 m hp h2 h2' with ⟨_, hb⟩ | ⟨hl2, _⟩ | ⟨hl2, _⟩
    · rw [ha, hb]; rfl
    · omega
    · omega
  · rcases scan_cases bg p out2 m hp h2 h2' with ⟨hl2, _⟩ | ⟨_, hb⟩ | ⟨hl2, _⟩
    · omega
    · rw [ha, hb]
    · omega
  · rcases scan_cases bg p out2 m hp h2 h2' with ⟨hl2, _⟩ | ⟨hl2, _⟩ | ⟨_, rb, hb, hb2⟩
    · omega
    · omega
    · rw [ha, hb]
      have hra : ra.ret = (noI ra).ret := rfl
      have hrb : rb.ret = (noI rb).ret := rfl
      show Except.ok ra.ret = Except.ok rb.ret
      rw [hra, hrb, ha2, hb2]
      congr 1
      exact (absScan_control bg m (out1.length - 1) (out2.length - 1) p
        (initial_locals (out1.set (out1.length - 1) 0))
        (initial_locals (out2.set (out2.length - 1) 0)) rfl rfl rfl).1

/-- Instance of C7: payload `"12!!!"`, threshold 0, capacities 1 and 4. -/
theorem verdict_independent_of_capacity_witness :
    (ndpi_has_human_readeable_string (fun _ _ => false) [49, 50, 33, 33, 33]
        [49, 50, 33, 33, 33].length 0 [7] [7].length).map (fun r => r.ret) =
      (ndpi_has_human_readeable_string (fun _ _ => false) [49, 50, 33, 33, 33]
        [49, 50, 33, 33, 33].length 0 [7, 7, 7, 7] [7, 7, 7, 7].length).map (fun r => r.ret) ∧
    ndpi_has_human_readeable_string (fun _ _ => false)
        [48, 49, 50, 51, 52, 53, 54, 55, 56, 57, 33, 33, 33] 13 4 [7, 7, 7] 3
      = .ok { ret := 1, i := 10, do_cr := 1, len := 10, o_idx := 2, being_o_idx := 0,
              outbuf := [48, 49, 0] } :=
  verdict_independent_of_capacity (fun _ _ => false) [49, 50, 33, 33, 33] [7] [7, 7, 7, 7] 0
    (by decide) (by decide) (by decide) (by decide) (by decide)

/-- Case C8: output-buffer safety. For a capacity of at least 1 no call ends in
a write outside the output buffer, and when the call returns the write position
is at most `C - 1` (at most `C - 1` payload bytes are stored) and the buffer has
kept its size. -/
theorem output_buffer_never_overflows (bg : Nat → Nat → Bool) (p out : List Nat) (m : Nat)
    (hp : p.length < 2 ^ 32) (hc1 : 1 ≤ out.length) (hc : out.length < 2 ^ 32) :
    (∀ k, ndpi_has_human_readeable_string bg p p.length m out out.length
        ≠ .error (.oob_write k)) ∧
    (∀ r, ndpi_has_human_readeable_string bg p p.length m out out.length = .ok r →
        r.o_idx ≤ out.length - 1 ∧ r.outbuf.length = out.length) := by
  rcases scan_cases bg p out m hp hc1 hc with ⟨_, ha⟩ | ⟨_, ha⟩ | ⟨_, ra, ha, ha2⟩
  · rw [ha]
    refine ⟨fun k h => (by cases h), fun r h => ?_⟩
    injection h with h
    subst h
    exact ⟨Nat.zero_le _, rfl⟩
  · rw [ha]
    exact ⟨fun k h => (by cases h), fun r h => (by cases h)⟩
  · rw [ha]
    refine ⟨fun k h => (by cases h), fun r h => ?_⟩
    injection h with h
    subst h
    have ho : ra.o_idx = (noI ra).o_idx := rfl
    have hb : ra.outbuf = (noI ra).outbuf := rfl
    rw [ho, hb, ha2]
    have := absScan_o_idx bg m (out.length - 1) p
      (initial_locals (out.set (out.length - 1) 0)) (Nat.zero_le _)
    simpa [initial_locals] using this

/-- Instance of C8: payload `"0123456789!!!"`, threshold 4, capacity 3. -/
theorem output_buffer_never_overflows_witness :
    (∀ k, ndpi_has_human_readeable_string (fun _ _ => false)
        [48, 49, 50, 51, 52, 53, 54, 55, 56, 57, 33, 33, 33]
        [48, 49, 50, 51, 52, 53, 54, 55, 56, 57, 33, 33, 33].length 4 [7, 7, 7] [7, 7, 7].length
        ≠ .error (.oob_write k)) ∧
    (∀ r, ndpi_has_human_readeable_string (fun _ _ => false)
        [48, 49, 50, 51, 52, 53, 54, 55, 56, 57, 33, 33, 33]
        [48, 49, 50, 51, 52, 53, 54, 55, 56, 57, 33, 33, 33].length 4 [7, 7, 7] [7, 7, 7].length
        = .ok r →
        r.o_idx ≤ [7, 7, 7].length - 1 ∧ r.outbuf.length = [7, 7, 7].length) :=
  output_buffer_never_overflows (fun _ _ => false)
    [48, 49, 50, 51, 52, 53, 54, 55, 56, 57, 33, 33, 33] [7, 7, 7] 4
    (by decide) (by decide) (by decide)

/-- Case C9, failing input: payload `"12!!!"`, threshold 0, an output buffer of
capacity 4 that holds the bytes 7, 7, 7, 7 before the call. The call returns 1
with an accepted run of length 2, and the output byte at index `min 2 (4 - 1)` is
still 7: no sentinel is written behind an accepted run. -/
theorem found_run_not_terminated :
    ∃ r, ndpi_has_human_readeable_string (fun _ _ => false) [49, 50, 33, 33, 33] 5 0
        [7, 7, 7, 7] 4 = .ok r ∧
      r.ret = 1 ∧ r.len = 2 ∧ r.outbuf = [49, 50, 7, 0] ∧
      r.outbuf[min r.len (4 - 1)]? = some 7 :=
  ⟨_, rfl, rfl, rfl, rfl, rfl⟩

/-- Case C10, failing input: the payload `"20190"`, threshold 0, an output buffer
of six zeros. The call returns 0 and the buffer starts with `"2019"`: the run is
still open when the scan range is exhausted, nothing after the loop judges or
erases it, and the byte at index 0 is not the sentinel. The sibling path in the
loop does erase a run that it rejects: for the payload `"2019!!!"` with
threshold 4 the same run is closed at the `!`, rolled back, and index 0 holds
the sentinel. A payload without any valid character (`"!!!!!"`) returns 0 after
a single write, the one to the last slot, so a buffer that held 7, 7, 7 still
starts with 7. -/
theorem not_found_output_not_empty :
    (∃ r, ndpi_has_human_readeable_string (fun _ _ => false) [50, 48, 49, 57, 48] 5 0
        [0, 0, 0, 0, 0, 0] 6 = .ok r ∧
      r.ret = 0 ∧ r.do_cr = 1 ∧ r.outbuf = [50, 48, 49, 57, 0, 0] ∧ r.outbuf[0]? ≠ some 0) ∧
    (∃ r, ndpi_has_human_readeable_string (fun _ _ => false) [50, 48, 49, 57, 33, 33, 33] 7 4
        [0, 0, 0, 0, 0, 0] 6 = .ok r ∧
      r.ret = 0 ∧ r.do_cr = 0 ∧ r.outbuf = [0, 48, 49, 57, 0, 0] ∧ r.outbuf[0]? = some 0) ∧
    (∃ r, ndpi_has_human_readeable_string (fun _ _ => false) [33, 33, 33, 33, 33] 5 0
        [7, 7, 7] 3 = .ok r ∧
      r.ret = 0 ∧ r.outbuf = [7, 7, 0] ∧ r.outbuf[0]? ≠ some 0) :=
  ⟨⟨_, rfl, rfl, rfl, rfl, by decide⟩, ⟨_, rfl, rfl, rfl, rfl, rfl⟩,
    ⟨_, rfl, rfl, rfl, by decide⟩⟩

/-- Case C11, counterexample: for the empty payload the call returns at once and
the output buffer 7, 7, 7 is left as it is, so the byte at index `C - 1 = 2` is 7
and not the sentinel. -/
theorem empty_payload_writes_no_sentinel :
    ∃ r, ndpi_has_human_readeable_string (fun _ _ => false) [] 0 0 [7, 7, 7] 3 = .ok r ∧
      r.ret = 0 ∧ r.outbuf = [7, 7, 7] ∧ r.outbuf[3 - 1]? ≠ some 0 :=
  ⟨_, rfl, rfl, rfl, by decide⟩

/-- Case C11, amended: the sentinel at the reserved slot. For every payload that
is not empty, every threshold, bigram set and capacity `C ≥ 1`, after the call
has returned the output byte at index `C - 1` is the sentinel 0; for the empty
payload the call returns 0 and leaves the output buffer as it was. -/
theorem sentinel_at_last_slot_unless_empty (bg : Nat → Nat → Bool) (p out : List Nat) (m : Nat)
    (hp : p.length < 2 ^ 32) (hc1 : 1 ≤ out.length) (hc : out.length < 2 ^ 32) :
    (p ≠ [] → ∀ r, ndpi_has_human_readeable_string bg p p.length m out out.length = .ok r →
        r.outbuf[out.length - 1]? = some 0) ∧
    (p = [] → ∃ r, ndpi_has_human_readeable_string bg p p.length m out out.length = .ok r ∧
        r.ret = 0 ∧ r.outbuf = out) := by
  rcases scan_cases bg p out m hp hc1 hc with ⟨hl, ha⟩ | ⟨hl, ha⟩ | ⟨hl, ra, ha, ha2⟩
  · rw [ha]
    refine ⟨fun hne => ?_, fun _ => ⟨_, rfl, rfl, rfl⟩⟩
    exact absurd (List.length_eq_zero.mp hl) hne
  · rw [ha]
    refine ⟨fun _ r h => (by cases h), fun he => ?_⟩
    rw [he] at hl
    cases hl
  · rw [ha]
    refine ⟨fun _ r h => ?_, fun he => ?_⟩
    · injection h with h
      subst h
      have hb : ra.outbuf = (noI ra).outbuf := rfl
      rw [hb, ha2]
      apply absScan_last_slot
      · simp only [initial_locals]
        rw [List.getElem?_set, if_pos rfl, if_pos (by omega)]
      · exact Nat.zero_le _
    · rw [he] at hl
      simp at hl

/-- Instance of C11 as amended: payload `"!!!"`, capacity 3. -/
theorem sentinel_at_last_slot_unless_empty_witness :
    (([33, 33, 33] : List Nat) ≠ [] →
      ∀ r, ndpi_has_human_readeable_string (fun _ _ => false) [33, 33, 33] [33, 33, 33].length 0
          [7, 7, 7] [7, 7, 7].length = .ok r →
        r.outbuf[[7, 7, 7].length - 1]? = some 0) ∧
    (([33, 33, 33] : List Nat) = [] →
      ∃ r, ndpi_has_human_readeable_string (fun _ _ => false) [33, 33, 33] [33, 33, 33].length 0
          [7, 7, 7] [7, 7, 7].length = .ok r ∧ r.ret = 0 ∧ r.outbuf = [7, 7, 7]) :=
  sentinel_at_last_slot_unless_empty (fun _ _ => false) [33, 33, 33] [7, 7, 7] 0
    (by decide) (by decide) (by decide)

/-- Case C12, failing input: a payload of the single byte `A`. The loop bound
`buffer_size-2` wraps around to `2^32-1`, position 0 is evaluated, and the call
ends in a read of `buffer[1]`, outside the payload; the payloads of length 0
and 2 return 0 without any iteration. -/
theorem one_byte_payload_reads_out_of_bounds :
    ndpi_has_human_readeable_string (fun _ _ => false) [65] 1 0 [0, 0, 0, 0] 4
      = .error (.oob_read 1) ∧
    u32 (1 + 2 ^ 32 - 2) = 4294967295 ∧
    pair_test (fun _ _ => false) [65] 0 = .error (.oob_read 1) ∧
    (∃ r, ndpi_has_human_readeable_string (fun _ _ => false) [] 0 0 [0, 0, 0, 0] 4 = .ok r ∧
      r.ret = 0 ∧ r.i = 0) ∧
    (∃ r, ndpi_has_human_readeable_string (fun _ _ => false) [65, 66] 2 0 [0, 0, 0, 0] 4
        = .ok r ∧ r.ret = 0 ∧ r.i = 0) :=
  ⟨rfl, by decide, rfl, ⟨_, rfl, rfl, rfl⟩, ⟨_, rfl, rfl, rfl⟩⟩

/-- Case C13, failing input: payload `"12!!!"` and an output buffer of capacity
0. `outbuf_len--` wraps around to `2^32-1` and the first statement behind it
writes `outbuf[4294967295]`; only the empty payload returns before that. -/
theorem capacity_zero_writes_out_of_bounds :
    ndpi_has_human_readeable_string (fun _ _ => false) [49, 50, 33, 33, 33] 5 0 [] 0
      = .error (.oob_write 4294967295) ∧
    u32 (0 + 2 ^ 32 - 1) = 4294967295 ∧
    (∃ r, ndpi_has_human_readeable_string (fun _ _ => false) [] 0 0 [] 0 = .ok r ∧
      r.ret = 0 ∧ r.outbuf = []) :=
  ⟨rfl, by decide, ⟨_, rfl, rfl, rfl⟩⟩

/-- Case C14: idempotence. If a scan returns with verdict `v1` and output `o1`,
the scan of the same payload with the same parameters into `o1` returns the
verdict `v1` and the output `o1` again. -/
theorem scan_twice_same_result (bg : Nat → Nat → Bool) (p out : List Nat) (m : Nat)
    (r1 : Locals) (hp : p.length < 2 ^ 32) (hc1 : 1 ≤ out.length) (hc : out.length < 2 ^ 32)
    (h : ndpi_has_human_readeable_string bg p p.length m out out.length = .ok r1) :
    ∃ r2, ndpi_has_human_readeable_string bg p p.length m r1.outbuf out.length = .ok r2 ∧
      r2.ret = r1.ret ∧ r2.outbuf = r1.outbuf := by
  rcases scan_cases bg p out m hp hc1 hc with ⟨hl, ha⟩ | ⟨hl, ha⟩ | ⟨hl, ra, ha, ha2⟩
  · rw [ha] at h
    injection h with h
    subst h
    rw [hl]
    exact ⟨_, scan_empty bg p _ m out.length, rfl, rfl⟩
  · rw [ha] at h
    cases h
  · rw [ha] at h
    injection h with h
    subst h
    have hlen : ra.outbuf.length = out.length := by
      have hb : ra.outbuf = (noI ra).outbuf := rfl
      rw [hb, ha2]
      have := (absScan_o_idx bg m (out.length - 1) p
        (initial_locals (out.set (out.length - 1) 0)) (Nat.zero_le _)).2
      simpa [initial_locals] using this
    obtain ⟨r2, hr2, hr3⟩ := scan_normal bg p ra.outbuf m hl hp (by omega) (by omega)
    rw [hlen] at hr2 hr3
    refine ⟨r2, hr2, ?_, ?_⟩
    · have e1 : r2.ret = (noI r2).ret := rfl
      have e2 : ra.ret = (noI ra).ret := rfl
      rw [e1, e2, hr3, ha2]
      exact (absScan_control bg m (out.length - 1) (out.length - 1) p
        (initial_locals (ra.outbuf.set (out.length - 1) 0))
        (initial_locals (out.set (out.length - 1) 0)) rfl rfl rfl).1
    · have h0 : SameWrites out ra.outbuf out ra.outbuf := fun k => Or.inr ⟨rfl, rfl⟩
      have ht : Twin out ra.outbuf (initial_locals (out.set (out.length - 1) 0))
          (initial_locals (ra.outbuf.set (out.length - 1) 0)) :=
        ⟨rfl, rfl, rfl, by simp [initial_locals, hlen], h0.set hlen.symm _ _⟩
      have hfin := (absScan_twin bg m (out.length - 1) p _ _ _ _ ht).rel
      rw [← ha2, ← hr3] at hfin
      apply List.ext_getElem?
      intro k
      rcases hfin k with hk | ⟨_, hk⟩
      · exact hk.symm
      · exact hk

/-- Instance of C14: payload `"12!!!"`, threshold 0, first scanned into 7, 7, 7, 7. -/
theorem scan_twice_same_result_witness :
    ∃ r2, ndpi_has_human_readeable_string (fun _ _ => false) [49, 50, 33, 33, 33]
          [49, 50, 33, 33, 33].length 0 [49, 50, 7, 0] [7, 7, 7, 7].length = .ok r2 ∧
      r2.ret = 1 ∧ r2.outbuf = [49, 50, 7, 0] :=
  scan_twice_same_result (fun _ _ => false) [49, 50, 33, 33, 33] [7, 7, 7, 7] 0
    { ret := 1, i := 2, do_cr := 1, len := 2, o_idx := 2, being_o_idx := 0,
      outbuf := [49, 50, 7, 0] }
    (by decide) (by decide) (by decide) rfl

/-- Case C15: the bigram validator. `ndpi_find_non_eng_bigrams` accepts the pair
`(b0, b1)` iff both bytes are decimal digits, or one of them is `.`, space, `@`
or `/`, or the lower-cased key is in the bigram set; for a pair of digits and
for a pair with one of the four characters the result is the same for all
bigram sets. -/
theorem bigram_validator_cases (bg bg1 bg2 : Nat → Nat → Bool) (b0 b1 : Nat) :
    (ndpi_find_non_eng_bigrams bg b0 b1 = true ↔
      ((48 ≤ b0 ∧ b0 ≤ 57) ∧ (48 ≤ b1 ∧ b1 ≤ 57)) ∨
      ((b0 = 46 ∨ b0 = 32 ∨ b0 = 64 ∨ b0 = 47) ∨ (b1 = 46 ∨ b1 = 32 ∨ b1 = 64 ∨ b1 = 47)) ∨
      bg (tolower b0) (tolower b1) = true) ∧
    ((((48 ≤ b0 ∧ b0 ≤ 57) ∧ (48 ≤ b1 ∧ b1 ≤ 57)) ∨
      ((b0 = 46 ∨ b0 = 32 ∨ b0 = 64 ∨ b0 = 47) ∨ (b1 = 46 ∨ b1 = 32 ∨ b1 = 64 ∨ b1 = 47))) →
      ndpi_find_non_eng_bigrams bg1 b0 b1 = ndpi_find_non_eng_bigrams bg2 b0 b1) := by
  have key : ∀ (g : Nat → Nat → Bool),
      ndpi_find_non_eng_bigrams g b0 b1 =
        if ((48 ≤ b0 ∧ b0 ≤ 57) ∧ (48 ≤ b1 ∧ b1 ≤ 57)) ∨
          ((b0 = 46 ∨ b0 = 32 ∨ b0 = 64 ∨ b0 = 47) ∨ (b1 = 46 ∨ b1 = 32 ∨ b1 = 64 ∨ b1 = 47))
        then true else g (tolower b0) (tolower b1) := by
    intro g
    simp only [ndpi_find_non_eng_bigrams, isdigit, ndpi_is_other_char, Bool.or_eq_true,
      Bool.and_eq_true, decide_eq_true_eq, beq_iff_eq, or_assoc]
  constructor
  · rw [key bg]
    split
    · next h => simp only [true_iff]; tauto
    · next h => constructor
                · intro hb; exact Or.inr (Or.inr hb)
                · intro hb; rcases hb with hb | hb | hb
                  · exact absurd (Or.inl hb) h
                  · exact absurd (Or.inr hb) h
                  · exact hb
  · intro h
    rw [key bg1, key bg2, if_pos h, if_pos h]

/-- Instance of C15: the pair `"7."` under two different bigram sets. -/
theorem bigram_validator_cases_witness :
    ndpi_find_non_eng_bigrams (fun _ _ => false) 55 46 =
      ndpi_find_non_eng_bigrams (fun _ _ => true) 55 46 :=
  (bigram_validator_cases (fun _ _ => false) (fun _ _ => false) (fun _ _ => true) 55 46).2
    (Or.inr (Or.inr (Or.inl rfl)))

/-- Case C16: the character classifier. `ndpi_is_valid_char b` holds iff `b` is
alphabetic, a decimal digit or one of `.`, space, `@`, `/`; every other
punctuation byte and every control byte (0 to 31, and 127) is rejected. -/
theorem valid_char_iff_alnum_or_allowed (b : Nat) :
    (ndpi_is_valid_char b = true ↔
      isalpha b = true ∨ isdigit b = true ∨ b = 46 ∨ b = 32 ∨ b = 64 ∨ b = 47) ∧
    (ispunct b = true → ¬ (b = 46 ∨ b = 32 ∨ b = 64 ∨ b = 47) →
      ndpi_is_valid_char b = false) ∧
    (b < 32 ∨ b = 127 → ndpi_is_valid_char b = false) := by
  have e : ndpi_is_valid_char b = true ↔
      isalpha b = true ∨ isdigit b = true ∨ b = 46 ∨ b = 32 ∨ b = 64 ∨ b = 47 := by
    simp only [ndpi_is_valid_char, ispunct, isalpha, isdigit, ndpi_is_other_char]
    split
    · next h =>
      simp only [Bool.and_eq_true, Bool.or_eq_true, decide_eq_true_eq, Bool.not_eq_true',
        Bool.or_eq_false_iff, beq_eq_false_iff_ne, ne_eq] at h
      simp only [Bool.false_eq_true, false_iff, Bool.or_eq_true, Bool.and_eq_true,
        decide_eq_true_eq]
      omega
    · next h =>
      simp only [Bool.or_eq_true, Bool.and_eq_true, decide_eq_true_eq, beq_iff_eq]
      omega
  refine ⟨e, ?_, ?_⟩
  · intro hp hn
    have : ¬ ndpi_is_valid_char b = true := by
      rw [e]
      simp only [ispunct, isalpha, isdigit, Bool.or_eq_true, Bool.and_eq_true,
        decide_eq_true_eq] at hp ⊢
      omega
    simpa using this
  · intro hc
    have : ¬ ndpi_is_valid_char b = true := by
      rw [e]
      simp only [isalpha, isdigit, Bool.or_eq_true, Bool.and_eq_true, decide_eq_true_eq]
      omega
    simpa using this

/-- Instance of C16: `#` is punctuation outside the allow-list. -/
theorem valid_char_iff_alnum_or_allowed_witness : ndpi_is_valid_char 35 = false :=
  (valid_char_iff_alnum_or_allowed 35).2.1 (by decide) (by decide)

/-- Case C17, counterexample: payload `"abxcd!!!"`, the bigram set {ab, cd},
threshold 4. At position 2 a run is open, the pair `xc` fails and `x` is a valid
character; the run `"abx"` is closed there and rejected, `"cd"` starts a new run
that is rejected as well, and the call returns 0. -/
theorem single_char_extension_example_not_found :
    ndpi_has_human_readeable_string
        (fun a b => (a == 97 && b == 98) || (a == 99 && b == 100))
        [97, 98, 120, 99, 100, 33, 33, 33] 8 4 [0, 0, 0, 0, 0, 0, 0, 0] 8
      = .ok { ret := 0, i := 6, do_cr := 0, len := 0, o_idx := 0, being_o_idx := 0,
              outbuf := [0, 100, 120, 0, 0, 0, 0, 0] } := by
  rfl

/-- Case C17, amended: at every scan position where a run is open, the pair test
fails and `buffer[i]` is a valid character, the scanner appends `buffer[i]` (if
there is room) and counts it, and closes the run in the same iteration: if the
length `len + 1` is larger than the threshold the loop is left with `ret = 1`,
otherwise the run is rolled back (`o_idx = 0`, a sentinel at index 0, `len = 0`,
`do_cr = 0`), so that a pair that follows starts a new run. -/
theorem single_char_extension_closes_run (bg : Nat → Nat → Bool) (p out : List Nat) (m : Nat)
    (s : Locals) (a b : Nat) (hp : p.length < 2 ^ 32) (hc1 : 1 ≤ out.length)
    (hc : out.length < 2 ^ 32)
    (hh : loop_head_of_call bg p p.length m out out.length s)
    (hopen : s.do_cr ≠ 0) (hpt : pair_test bg p s.i = .ok (false, a, b))
    (ha : ndpi_is_valid_char a = true) :
    (m < s.len + 1 ∧
      loop_body bg p m (out.length - 1) s =
        .ok ({ putP (out.length - 1) a s with len := s.len + 1, ret := 1 }, true)) ∨
    (s.len + 1 ≤ m ∧
      loop_body bg p m (out.length - 1) s =
        .ok ({ putP (out.length - 1) a s with
                 len := 0, do_cr := 0, o_idx := 0,
                 outbuf := (putP (out.length - 1) a s).outbuf.set 0 0 }, false)) := by
  obtain ⟨hinv, _⟩ := loop_head_of_call_inv hp hc1 hc hh
  -- the two bytes at the scan position
  have hrd : rd p s.i = .ok a ∧ rd p (u32 (s.i + 1)) = .ok b ∧
      (ndpi_is_valid_char b && ndpi_find_non_eng_bigrams bg a b) = false := by
    unfold pair_test at hpt
    cases h0 : rd p s.i with
    | error e => rw [h0] at hpt; cases hpt
    | ok a0 =>
      rw [h0] at hpt
      dsimp only at hpt
      by_cases v0 : ndpi_is_valid_char a0 = true
      · rw [if_pos v0] at hpt
        cases h1 : rd p (u32 (s.i + 1)) with
        | error e => rw [h1] at hpt; cases hpt
        | ok b0 =>
          rw [h1] at hpt
          dsimp only at hpt
          injection hpt with hpt
          injection hpt with e1 e2
          injection e2 with e2 e3
          subst e2 e3
          exact ⟨rfl, rfl, e1⟩
      · rw [if_neg v0] at hpt
        injection hpt with hpt
        injection hpt with _ e2
        injection e2 with e2 _
        rw [e2] at v0
        exact absurd ha v0
  obtain ⟨h0, h1, hf⟩ := hrd
  have hl := rd_ok_lt h0
  have hl1 := rd_ok_lt h1
  have hu : u32 (s.i + 1) = s.i + 1 := u32_of_lt (by omega)
  rw [hu] at h1
  obtain ⟨t, ht⟩ := drop_of_rd h0
  obtain ⟨t1, ht1⟩ := drop_of_rd h1
  have ht2 : p.drop s.i = a :: b :: t1 := by
    rw [ht, ← drop_succ_of_drop ht, ht1]
  have hpk : pairOK bg a b = false := by
    unfold pairOK
    rw [Bool.and_assoc, hf, Bool.and_false]
  rw [loop_body_eq hinv.wf ht2 hp]
  unfold bodyP
  have hx : extStep (out.length - 1) a s = { putP (out.length - 1) a s with len := s.len + 1 } := by
    unfold extStep
    rw [if_pos ha]
  rw [hpk, hx]
  simp only [Bool.false_eq_true, if_false, if_pos hopen]
  by_cases hm : s.len + 1 > m
  · left
    exact ⟨hm, by rw [if_pos hm]⟩
  · right
    refine ⟨by omega, ?_⟩
    rw [if_neg hm]
    rfl

/-- Instance of C17 as amended: position 2 of `"abxcd!!!"` with the bigram set
{ab, cd} and threshold 4. -/
theorem single_char_extension_closes_run_witness :
    (4 < 2 + 1 ∧
      loop_body (fun a b => (a == 97 && b == 98) || (a == 99 && b == 100))
          [97, 98, 120, 99, 100, 33, 33, 33] 4 ([0, 0, 0, 0].length - 1)
          { ret := 0, i := 2, do_cr := 1, len := 2, o_idx := 2, being_o_idx := 0,
            outbuf := [97, 98, 0, 0] } =
        .ok ({ ret := 1, i := 2, do_cr := 1, len := 3, o_idx := 3, being_o_idx := 0,
               outbuf := [97, 98, 120, 0] }, true)) ∨
    (2 + 1 ≤ 4 ∧
      loop_body (fun a b => (a == 97 && b == 98) || (a == 99 && b == 100))
          [97, 98, 120, 99, 100, 33, 33, 33] 4 ([0, 0, 0, 0].length - 1)
          { ret := 0, i := 2, do_cr := 1, len := 2, o_idx := 2, being_o_idx := 0,
            outbuf := [97, 98, 0, 0] } =
        .ok ({ ret := 0, i := 2, do_cr := 0, len := 0, o_idx := 0, being_o_idx := 0,
               outbuf := [0, 98, 120, 0] }, false)) :=
  single_char_extension_closes_run (fun a b => (a == 97 && b == 98) || (a == 99 && b == 100))
    [97, 98, 120, 99, 100, 33, 33, 33] [0, 0, 0, 0] 4
    { ret := 0, i := 2, do_cr := 1, len := 2, o_idx := 2, being_o_idx := 0,
      outbuf := [97, 98, 0, 0] } 120 99
    (by decide) (by decide) (by decide)
    ⟨by decide, [0, 0, 0, 0], rfl,
      @LoopHead.next (fun a b => (a == 97 && b == 98) || (a == 99 && b == 100))
        [97, 98, 120, 99, 100, 33, 33, 33] 6 4 3
        (initial_locals [0, 0, 0, 0]) (initial_locals [0, 0, 0, 0])
        { ret := 0, i := 1, do_cr := 1, len := 2, o_idx := 2, being_o_idx := 0,
          outbuf := [97, 98, 0, 0] }
        LoopHead.entry (by decide) rfl⟩
    (by decide) rfl rfl

/-- Case C18: the early exit makes Found stable under extension. If the scan of
`p` returns 1 with output `o`, the scan of `p ++ ext` returns 1 with the same
output, for every byte sequence `ext`. -/
theorem found_stable_under_extension (bg : Nat → Nat → Bool) (p ext out : List Nat) (m : Nat)
    (r : Locals) (hp : (p ++ ext).length < 2 ^ 32) (hc1 : 1 ≤ out.length)
    (hc : out.length < 2 ^ 32)
    (h : ndpi_has_human_readeable_string bg p p.length m out out.length = .ok r)
    (hret : r.ret = 1) :
    ∃ r1, ndpi_has_human_readeable_string bg (p ++ ext) (p ++ ext).length m out out.length
        = .ok r1 ∧ r1.ret = 1 ∧ r1.outbuf = r.outbuf := by
  have hpl : p.length < 2 ^ 32 := by simp at hp; omega
  rcases scan_cases bg p out m hpl hc1 hc with ⟨_, ha⟩ | ⟨_, ha⟩ | ⟨hl, ra, ha, ha2⟩
  · rw [ha] at h
    injection h with h
    rw [← h] at hret
    simp [initial_locals] at hret
  · rw [ha] at h
    cases h
  · rw [ha] at h
    injection h with h
    subst h
    obtain ⟨r1, hr1, hr2⟩ := scan_normal bg (p ++ ext) out m (by simp; omega) hp hc1 hc
    have hf : (absScan bg m (out.length - 1) p
        (initial_locals (out.set (out.length - 1) 0))).ret = 1 := by
      rw [← ha2]; exact hret
    rw [absScan_found_append bg m _ p _ ext rfl hf, ← ha2] at hr2
    refine ⟨r1, hr1, ?_, ?_⟩
    · have : r1.ret = (noI r1).ret := rfl
      rw [this, hr2]; exact hret
    · have : r1.outbuf = (noI r1).outbuf := rfl
      rw [this, hr2]; rfl

/-- Instance of C18: `"12!!!"` extended by `"abc"`, threshold 0. -/
theorem found_stable_under_extension_witness :
    ∃ r1, ndpi_has_human_readeable_string (fun _ _ => true)
          ([49, 50, 33, 33, 33] ++ [97, 98, 99]) ([49, 50, 33, 33, 33] ++ [97, 98, 99]).length 0
          [7, 7, 7, 7] [7, 7, 7, 7].length = .ok r1 ∧
      r1.ret = 1 ∧ r1.outbuf = [49, 50, 7, 0] :=
  found_stable_under_extension (fun _ _ => true) [49, 50, 33, 33, 33] [97, 98, 99] [7, 7, 7, 7] 0
    { ret := 1, i := 2, do_cr := 1, len := 2, o_idx := 2, being_o_idx := 0,
      outbuf := [49, 50, 7, 0] }
    (by decide) (by decide) (by decide) rfl rfl

/-- Case C19: the scan range. For a payload `p` of `N ≥ 2` bytes the call
returns, and it returns the same when the buffer ends behind index `N - 2`
(`buffer_size` still being `N`): the bytes read are `buffer[i]` and
`buffer[i+1]`, and `payload[N-1]`, whose read would be a fault on the shorter
buffer, is never read. Hence a payload of the same length that differs only in
its last byte gives the same verdict and the same output buffer. The positions
at which an iteration starts are `0 .. N-3`. -/
theorem last_byte_is_never_read (bg : Nat → Nat → Bool) (p p2 out : List Nat) (m : Nat)
    (hN : 2 ≤ p.length) (hp : p.length < 2 ^ 32) (hc1 : 1 ≤ out.length)
    (hc : out.length < 2 ^ 32) :
    (∃ r, ndpi_has_human_readeable_string bg p p.length m out out.length = .ok r ∧
      ndpi_has_human_readeable_string bg p.dropLast p.length m out out.length = .ok r) ∧
    (p2.length = p.length → p2.dropLast = p.dropLast →
      ndpi_has_human_readeable_string bg p2 p2.length m out out.length =
        ndpi_has_human_readeable_string bg p p.length m out out.length) ∧
    (∀ s, loop_head_of_call bg p p.length m out out.length s →
      s.i < u32 (p.length + 2 ^ 32 - 2) → s.i + 3 ≤ p.length) := by
  have key : ∀ (l : List Nat), 2 ≤ l.length → l.length < 2 ^ 32 →
      ndpi_has_human_readeable_string bg l l.length m out out.length =
        ndpi_has_human_readeable_string bg l.dropLast l.length m out out.length := by
    intro l h2 h32
    have hne : l ≠ [] := by intro h; rw [h] at h2; simp at h2
    have hl := List.dropLast_append_getLast hne
    have hlen : l.length = l.dropLast.length + 1 := by
      conv_lhs => rw [← hl]
      simp
    have := scan_without_last_byte bg l.dropLast (l.getLast hne) m out out.length
      (by omega) (by omega)
    rw [hl, ← hlen] at this
    exact this
  refine ⟨?_, ?_, ?_⟩
  · obtain ⟨r, hr, _⟩ := scan_normal bg p out m hN hp hc1 hc
    exact ⟨r, hr, by rw [← key p hN hp]; exact hr⟩
  · intro hlen hd
    rw [key p hN hp, key p2 (by omega) (by omega), hlen, hd]
  · intro s _ hi
    have e2 : u32 (p.length + 2 ^ 32 - 2) = p.length - 2 := by
      unfold u32; omega
    rw [e2] at hi
    omega

/-- Instance of C19: the payloads `"12!!!"` and `"12!!a"`. -/
theorem last_byte_is_never_read_witness :
    (∃ r, ndpi_has_human_readeable_string (fun _ _ => true) [49, 50, 33, 33, 33]
          [49, 50, 33, 33, 33].length 0 [7, 7, 7, 7] [7, 7, 7, 7].length = .ok r ∧
      ndpi_has_human_readeable_string (fun _ _ => true) [49, 50, 33, 33, 33].dropLast
          [49, 50, 33, 33, 33].length 0 [7, 7, 7, 7] [7, 7, 7, 7].length = .ok r) ∧
    ([49, 50, 33, 33, 97].length = [49, 50, 33, 33, 33].length →
      [49, 50, 33, 33, 97].dropLast = [49, 50, 33, 33, 33].dropLast →
      ndpi_has_human_readeable_string (fun _ _ => true) [49, 50, 33, 33, 97]
          [49, 50, 33, 33, 97].length 0 [7, 7, 7, 7] [7, 7, 7, 7].length =
        ndpi_has_human_readeable_string (fun _ _ => true) [49, 50, 33, 33, 33]
          [49, 50, 33, 33, 33].length 0 [7, 7, 7, 7] [7, 7, 7, 7].length) ∧
    (∀ s, loop_head_of_call (fun _ _ => true) [49, 50, 33, 33, 33] [49, 50, 33, 33, 33].length 0
        [7, 7, 7, 7] [7, 7, 7, 7].length s →
      s.i < u32 ([49, 50, 33, 33, 33].length + 2 ^ 32 - 2) →
      s.i + 3 ≤ [49, 50, 33, 33, 33].length) :=
  last_byte_is_never_read (fun _ _ => true) [49, 50, 33, 33, 33] [49, 50, 33, 33, 97]
    [7, 7, 7, 7] 0 (by decide) (by decide) (by decide) (by decide)

/-- Case C20: the scanner state invariant. For a capacity `C ≥ 1`, at every
loop head of a call `0 ≤ o_idx ≤ C - 1` and `being_o_idx ≤ o_idx`; when no run is
open `len = 0` and `o_idx = being_o_idx`; when a run is open the number of bytes
stored for it is `o_idx - being_o_idx = min len (C - 1)`. The same holds of the
state in which an iteration leaves the loop by `break`. -/
theorem scanner_state_invariant (bg : Nat → Nat → Bool) (p out : List Nat) (m : Nat)
    (s : Locals) (hp : p.length < 2 ^ 32) (hc1 : 1 ≤ out.length) (hc : out.length < 2 ^ 32)
    (hh : loop_head_of_call bg p p.length m out out.length s) :
    cursor_invariant out.length s ∧
    (∀ s1, loop_body bg p m (out.length - 1) s = .ok (s1, true) →
      cursor_invariant out.length s1) := by
  obtain ⟨hinv, _⟩ := loop_head_of_call_inv hp hc1 hc hh
  refine ⟨hinv.cursor out.length rfl, fun s1 hb => ?_⟩
  obtain ⟨a, b, hbp, _, _, _⟩ := loop_body_cases hinv.wf hp hb
  obtain ⟨e, hcr, _, _⟩ := bodyP_break hbp
  have ho := extStep_o_idx_min (a := a) hinv.o
  have hbo : (extStep (out.length - 1) a s).being_o_idx = 0 := by
    rw [extStep_being]; exact hinv.wf.bo
  have hdc : (extStep (out.length - 1) a s).do_cr ≠ 0 := by
    rw [extStep_do_cr]; exact hcr
  subst e
  refine ⟨?_, ?_, fun h0 => absurd h0 hdc, fun _ => ?_⟩
  · show (extStep (out.length - 1) a s).o_idx ≤ out.length - 1
    omega
  · show (extStep (out.length - 1) a s).being_o_idx ≤ (extStep (out.length - 1) a s).o_idx
    omega
  · show (extStep (out.length - 1) a s).o_idx - (extStep (out.length - 1) a s).being_o_idx =
      min (extStep (out.length - 1) a s).len (out.length - 1)
    omega

/-- Instance of C20: the loop head after the first iteration on `"12!!!"`. -/
theorem scanner_state_invariant_witness :
    cursor_invariant [7, 7, 7, 7].length
      { ret := 0, i := 2, do_cr := 1, len := 2, o_idx := 2, being_o_idx := 0,
        outbuf := [49, 50, 7, 0] } ∧
    (∀ s1, loop_body (fun _ _ => false) [49, 50, 33, 33, 33] 0 ([7, 7, 7, 7].length - 1)
        { ret := 0, i := 2, do_cr := 1, len := 2, o_idx := 2, being_o_idx := 0,
          outbuf := [49, 50, 7, 0] } = .ok (s1, true) →
      cursor_invariant [7, 7, 7, 7].length s1) :=
  scanner_state_invariant (fun _ _ => false) [49, 50, 33, 33, 33] [7, 7, 7, 7] 0
    { ret := 0, i := 2, do_cr := 1, len := 2, o_idx := 2, being_o_idx := 0,
      outbuf := [49, 50, 7, 0] }
    (by decide) (by decide) (by decide)
    ⟨by decide, [7, 7, 7, 0], rfl,
      @LoopHead.next (fun _ _ => false) [49, 50, 33, 33, 33] 3 0 3
        (initial_locals [7, 7, 7, 0]) (initial_locals [7, 7, 7, 0])
        { ret := 0, i := 1, do_cr := 1, len := 2, o_idx := 2, being_o_idx := 0,
          outbuf := [49, 50, 7, 0] }
        LoopHead.entry (by decide) rfl⟩

/-! ## Statements of the specification about the other functions of `ndpi_utils.c` -/

/-- Case C21, failing input: the buffer `"xn--abc"` with its terminating 0 and
`len = 7`. The four bytes `xn--` stand at index 0 of the first `len` bytes, and
the call returns 0: the body of `while(i++ < len)` sees `i = 1 .. len` only, so
index 0 is never tested. The same bytes behind one other byte are found. -/
theorem punycode_at_index_zero_is_missed :
    ndpi_check_punycode_string [120, 110, 45, 45, 97, 98, 99, 0] 7 = .ok 0 ∧
    punycode_at [120, 110, 45, 45, 97, 98, 99, 0] 0 = .ok true ∧
    ndpi_check_punycode_string [97, 120, 110, 45, 45, 97, 98, 99, 0] 8 = .ok 1 :=
  ⟨rfl, rfl, rfl⟩

/-- Case C22: the punycode lookahead over-read. On the buffer `"abc"` of exactly
`len = 3` bytes the call reads position 3; on a memory of four bytes with
`len = 1` it reads position `len + 3 = 4`; and no call reads a position behind
`len + 3`: every fault is a read outside the buffer at an index of at most
`len + 3`. -/
theorem punycode_reads_up_to_len_plus_three (buffer : List Nat) (len : Nat) (e : Fault) :
    ndpi_check_punycode_string [97, 98, 99] 3 = .error (.oob_read 3) ∧
    ndpi_check_punycode_string [97, 120, 110, 45] 1 = .error (.oob_read 4) ∧
    (len + 3 < 2 ^ 31 → ndpi_check_punycode_string buffer (len : Int) = .error e →
      ∃ k, e = .oob_read k ∧ k ≤ len + 3 ∧ buffer.length ≤ k) := by
  refine ⟨rfl, rfl, fun _ h => ?_⟩
  unfold ndpi_check_punycode_string at h
  exact punycode_loop_error buffer len _ 0 e (by simp) (Nat.zero_le _) h

/-- Instance of C22: the buffer `"ax"` with `len = 2`. -/
theorem punycode_reads_up_to_len_plus_three_witness :
    ∃ k, Fault.oob_read 2 = .oob_read k ∧ k ≤ 2 + 3 ∧ [97, 120].length ≤ k :=
  (punycode_reads_up_to_len_plus_three [97, 120] 2 (.oob_read 2)).2.2 (by decide) rfl

/-- Case C24: delete. For a search tree, a comparator that is a total order
and a key `k`, after `ndpi_tdelete` the tree is a search tree whose keys are the
old keys without the one that compares equal to `k`; the call returns that key
when there is one, and returns the null pointer and leaves the tree unchanged
when there is none (an empty tree included). -/
theorem tdelete_removes_key {K : Type} (compar : K → K → Int) (hc : TotalOrder compar)
    (t : ndpi_node K) (k : K) (hs : search_tree compar t) :
    search_tree compar (ndpi_tdelete compar k t).1 ∧
    (∀ x, x ∈ keys (ndpi_tdelete compar k t).1 ↔ x ∈ keys t ∧ compar k x ≠ 0) ∧
    ((∃ y ∈ keys t, compar k y = 0) →
      ∃ y, (ndpi_tdelete compar k t).2 = some y ∧ y ∈ keys t ∧ compar k y = 0) ∧
    ((¬ ∃ y ∈ keys t, compar k y = 0) →
      (ndpi_tdelete compar k t).2 = none ∧ (ndpi_tdelete compar k t).1 = t) := by
  rcases tdelete_cases hc k t hs with ⟨e1, e2, e3⟩ | ⟨y, A, B, e1, e2, e3, e4⟩
  · rw [e1, e2]
    refine ⟨hs, fun x => ⟨fun hx => ⟨hx, e3 x hx⟩, fun hx => hx.1⟩, ?_, fun _ => ⟨rfl, rfl⟩⟩
    rintro ⟨y, hy, hky⟩
    exact absurd hky (e3 y hy)
  · have hsorted := (search_tree_iff_sorted hc t).mp hs
    rw [e3] at hsorted
    have hy : y ∈ keys t := by rw [e3]; simp
    have hA : ∀ x ∈ A, compar x y < 0 := by
      intro x hx
      rw [List.pairwise_append] at hsorted
      exact hsorted.2.2 x hx y (by simp)
    have hB : ∀ x ∈ B, compar y x < 0 := by
      intro x hx
      rw [List.pairwise_append, List.pairwise_cons] at hsorted
      exact hsorted.2.1.1 x hx
    refine ⟨?_, ?_, fun _ => ⟨y, e1, hy, e2⟩, fun h => absurd ⟨y, hy, e2⟩ h⟩
    · rw [search_tree_iff_sorted hc, e4]
      exact hsorted.sublist (List.Sublist.append_left (List.sublist_cons_self y B) A)
    · intro x
      rw [e4, e3]
      simp only [List.mem_append, List.mem_cons]
      constructor
      · rintro (hx | hx)
        · refine ⟨Or.inl hx, fun hkx => ?_⟩
          have := hc.eq_of_eq_of_eq hkx e2
          have := hA x hx
          omega
        · refine ⟨Or.inr (Or.inr hx), fun hkx => ?_⟩
          have := hc.eq_of_eq_of_eq e2 hkx
          have := hB x hx
          omega
      · rintro ⟨hx | hx | hx, hkx⟩
        · exact Or.inl hx
        · rw [hx] at hkx; exact absurd e2 hkx
        · exact Or.inr hx

/-- Instance of C24: the key 5 is deleted from the tree with the keys 3, 5, 7, 8. -/
theorem tdelete_removes_key_witness :
    search_tree (fun a b : Int => a - b)
      (ndpi_tdelete (fun a b : Int => a - b) 5
        (.node 5 (.node 3 .null .null) (.node 8 (.node 7 .null .null) .null))).1 ∧
    (∀ x, x ∈ keys (ndpi_tdelete (fun a b : Int => a - b) 5
          (.node 5 (.node 3 .null .null) (.node 8 (.node 7 .null .null) .null))).1 ↔
      x ∈ keys (ndpi_node.node (5 : Int) (.node 3 .null .null)
          (.node 8 (.node 7 .null .null) .null)) ∧
        (fun a b : Int => a - b) 5 x ≠ 0) ∧
    ((∃ y ∈ keys (ndpi_node.node (5 : Int) (.node 3 .null .null)
          (.node 8 (.node 7 .null .null) .null)), (fun a b : Int => a - b) 5 y = 0) →
      ∃ y, (ndpi_tdelete (fun a b : Int => a - b) 5
          (.node 5 (.node 3 .null .null) (.node 8 (.node 7 .null .null) .null))).2 = some y ∧
        y ∈ keys (ndpi_node.node (5 : Int) (.node 3 .null .null)
          (.node 8 (.node 7 .null .null) .null)) ∧
        (fun a b : Int => a - b) 5 y = 0) ∧
    ((¬ ∃ y ∈ keys (ndpi_node.node (5 : Int) (.node 3 .null .null)
          (.node 8 (.node 7 .null .null) .null)), (fun a b : Int => a - b) 5 y = 0) →
      (ndpi_tdelete (fun a b : Int => a - b) 5
          (.node 5 (.node 3 .null .null) (.node 8 (.node 7 .null .null) .null))).2 = none ∧
        (ndpi_tdelete (fun a b : Int => a - b) 5
          (.node 5 (.node 3 .null .null) (.node 8 (.node 7 .null .null) .null))).1 =
          .node 5 (.node 3 .null .null) (.node 8 (.node 7 .null .null) .null)) :=
  tdelete_removes_key (fun a b : Int => a - b)
    ⟨fun a b => by show a - b < 0 ↔ 0 < b - a; omega,
      fun a b c => by show a - b ≤ 0 → b - c ≤ 0 → a - c ≤ 0; omega⟩
    (.node 5 (.node 3 .null .null) (.node 8 (.node 7 .null .null) .null)) 5
    (by simp [search_tree, keys])

/-- Case C25: the order of the walk. The calls that `ndpi_twalk` makes to the
action with the kind `ndpi_leaf` or `ndpi_postorder`, in the order of the calls,
are the nodes of the tree in in-order (left subtree, node, right subtree), every
node once, with the level equal to the depth of the node; their keys are the
keys of the tree from left to right, which for a search tree ordered by a total
order are in ascending order. -/
theorem twalk_visits_in_order {K : Type} (compar : K → K → Int) (hc : TotalOrder compar)
    (t : ndpi_node K) :
    ((ndpi_twalk t false).filter
        (fun c => decide (c.which = .ndpi_leaf ∨ c.which = .ndpi_postorder))).map
      (fun c => (c.root, c.level)) = inorder_nodes t 0 ∧
    (inorder_nodes t 0).length = node_count t ∧
    (inorder_nodes t 0).filterMap (fun p => key_of p.1) = keys t ∧
    (search_tree compar t → (keys t).Pairwise (fun a b => compar a b < 0)) := by
  refine ⟨?_, inorder_nodes_length t 0, inorder_nodes_keys t 0,
    (search_tree_iff_sorted hc t).mp⟩
  cases t with
  | null => simp [ndpi_twalk, is_null, inorder_nodes]
  | node y l r =>
    have e : ndpi_twalk (.node y l r) false = ndpi_trecurse (.node y l r) 0 := by
      simp [ndpi_twalk, is_null]
    rw [e]
    exact trecurse_inorder _ 0

/-- Instance of C25: the tree with the keys 3, 5, 8, ordered by `a - b`. -/
theorem twalk_visits_in_order_witness :
    ((ndpi_twalk (ndpi_node.node (5 : Int) (.node 3 .null .null) (.node 8 .null .null))
          false).filter
        (fun c => decide (c.which = .ndpi_leaf ∨ c.which = .ndpi_postorder))).map
      (fun c => (c.root, c.level)) =
        inorder_nodes (ndpi_node.node (5 : Int) (.node 3 .null .null) (.node 8 .null .null)) 0 ∧
    (inorder_nodes (ndpi_node.node (5 : Int) (.node 3 .null .null) (.node 8 .null .null))
        0).length =
      node_count (ndpi_node.node (5 : Int) (.node 3 .null .null) (.node 8 .null .null)) ∧
    (inorder_nodes (ndpi_node.node (5 : Int) (.node 3 .null .null) (.node 8 .null .null))
        0).filterMap (fun p => key_of p.1) =
      keys (ndpi_node.node (5 : Int) (.node 3 .null .null) (.node 8 .null .null)) ∧
    (search_tree (fun a b : Int => a - b)
        (ndpi_node.node (5 : Int) (.node 3 .null .null) (.node 8 .null .null)) →
      (keys (ndpi_node.node (5 : Int) (.node 3 .null .null) (.node 8 .null .null))).Pairwise
        (fun a b => (fun a b : Int => a - b) a b < 0)) :=
  twalk_visits_in_order (fun a b : Int => a - b)
    ⟨fun a b => by show a - b < 0 ↔ 0 < b - a; omega,
      fun a b c => by show a - b ≤ 0 → b - c ≤ 0 → a - c ≤ 0; omega⟩
    (.node 5 (.node 3 .null .null) (.node 8 .null .null))

/-- Case C26: the prefix match. For 32-bit `ip_to_check` and `net` and
`num_bits` from 0 to 31 the call returns 1 iff the `num_bits` most significant
bits of the two values are equal (always for `num_bits = 0`), and 0 otherwise.
Failing input: `num_bits = 32`, where `~mask >> num_bits` shifts a 32-bit
operand by its width and the call has no defined result. -/
theorem net_match_prefix_below_32 (ip_to_check net num_bits : Nat) :
    (ip_to_check < 2 ^ 32 → net < 2 ^ 32 → num_bits < 32 →
      ndpi_net_match ip_to_check net num_bits =
        some (if ip_to_check / 2 ^ (32 - num_bits) = net / 2 ^ (32 - num_bits) then 1 else 0)) ∧
    (ip_to_check < 2 ^ 32 → net < 2 ^ 32 → ndpi_net_match ip_to_check net 0 = some 1) ∧
    ndpi_net_match 1 2 32 = none := by
  have main : ip_to_check < 2 ^ 32 → net < 2 ^ 32 → ∀ n, n < 32 →
      ndpi_net_match ip_to_check net n =
        some (if ip_to_check / 2 ^ (32 - n) = net / 2 ^ (32 - n) then 1 else 0) := by
    intro hx hy n hn
    unfold ndpi_net_match
    simp only [hn, if_true, and_net_mask_eq_iff ip_to_check net n hx hy hn]
  refine ⟨fun hx hy hn => main hx hy num_bits hn, fun hx hy => ?_, rfl⟩
  rw [main hx hy 0 (by decide)]
  have e1 : ip_to_check / 2 ^ (32 - 0) = 0 := Nat.div_eq_of_lt hx
  have e2 : net / 2 ^ (32 - 0) = 0 := Nat.div_eq_of_lt hy
  rw [e1, e2, if_pos rfl]

/-- Instance of C26: 192.168.1.7 against 192.168.1.0/24. -/
theorem net_match_prefix_below_32_witness :
    ndpi_net_match 3232235783 3232235776 24 =
      some (if 3232235783 / 2 ^ (32 - 24) = 3232235776 / 2 ^ (32 - 24) then 1 else 0) :=
  (net_match_prefix_below_32 3232235783 3232235776 24).1 (by decide) (by decide) (by decide)

/-- Case C27: the labels of the TLS versions. For a 16-bit `version` the flag
`*unknown_tls_version` is set to 1 iff `version` is none of 0x0300, 0x0301,
0x0302, 0x0303, 0x0304, 0xFB1A, 0xFEFF, 0xFEFD and lies outside 0x7F00..0x7FFF;
in that case the label is `TLS (XXXX)`, where `XXXX` are four upper-case
hexadecimal digits that denote `version`; otherwise the flag is 0 and the label
is one of nine fixed names. -/
theorem ssl_version_label (version : Nat) (hv : version < 2 ^ 16) :
    ((ndpi_ssl_version2str version).2 = 1 ↔
      (version ≠ 0x0300 ∧ version ≠ 0x0301 ∧ version ≠ 0x0302 ∧ version ≠ 0x0303 ∧
        version ≠ 0x0304 ∧ version ≠ 0xFB1A ∧ version ≠ 0xFEFF ∧ version ≠ 0xFEFD ∧
        ¬ (0x7F00 ≤ version ∧ version ≤ 0x7FFF))) ∧
    ((ndpi_ssl_version2str version).2 = 1 →
      (ndpi_ssl_version2str version).1 =
          String.mk (['T', 'L', 'S', ' ', '('] ++ format_04X version ++ [')']) ∧
        (format_04X version).length = 4 ∧
        (∀ c ∈ format_04X version, c ∈ "0123456789ABCDEF".toList) ∧
        hex_decode (format_04X version) = version) ∧
    ((ndpi_ssl_version2str version).2 ≠ 1 →
      (ndpi_ssl_version2str version).2 = 0 ∧
        (ndpi_ssl_version2str version).1 ∈
          ["SSLv3", "TLSv1", "TLSv1.1", "TLSv1.2", "TLSv1.3", "TLSv1.3 (Fizz)", "DTLSv1.0",
            "DTLSv1.2", "TLSv1.3 (draft)"]) := by
  by_cases h : version ≠ 0x0300 ∧ version ≠ 0x0301 ∧ version ≠ 0x0302 ∧ version ≠ 0x0303 ∧
      version ≠ 0x0304 ∧ version ≠ 0xFB1A ∧ version ≠ 0xFEFF ∧ version ≠ 0xFEFD ∧
      ¬ (0x7F00 ≤ version ∧ version ≤ 0x7FFF)
  · have e := ssl_version_unknown version h
    rw [e]
    exact ⟨⟨fun _ => h, fun _ => rfl⟩,
      fun _ => ⟨rfl, rfl, format_04X_digits version, format_04X_decode version hv⟩,
      fun hne => absurd rfl hne⟩
  · obtain ⟨e0, e1⟩ := ssl_version_known version h
    refine ⟨⟨fun h1 => ?_, fun h1 => absurd h1 h⟩, fun h1 => ?_, fun _ => ⟨e0, e1⟩⟩
    · rw [e0] at h1; cases h1
    · rw [e0] at h1; cases h1

/-- Instance of C27: the version 0x0A0B is unknown and is labelled `TLS (0A0B)`. -/
theorem ssl_version_label_witness :
    (ndpi_ssl_version2str 0x0A0B).1 =
        String.mk (['T', 'L', 'S', ' ', '('] ++ format_04X 0x0A0B ++ [')']) ∧
      (format_04X 0x0A0B).length = 4 ∧
      (∀ c ∈ format_04X 0x0A0B, c ∈ "0123456789ABCDEF".toList) ∧
      hex_decode (format_04X 0x0A0B) = 0x0A0B :=
  (ssl_version_label 0x0A0B (by decide)).2.1 rfl


end NDPI
